import Mathlib

/-!
Verification of rfsmi/adventofcode-2022 against its natural-language
specification.  Each Rust solver that a claim touches is shallowly embedded
below: pure Rust functions become Lean functions on `Nat`/`Int`/`List`,
panicking functions return `Option`, and pointer-based structures become
arenas of nodes addressed by index.  The claims are then settled as theorems
about these definitions.

The file is organised as definitions first (per solver), then theorems.
-/

set_option maxHeartbeats 1000000
set_option maxRecDepth 100000

/-! ## Shared helpers: the fragments of Rust's string API the solvers use -/

namespace RustStr

/-- Rust's `char::is_whitespace`: the Unicode `White_Space` code points. -/
def isWhitespace (c : Char) : Bool :=
  (9 ≤ c.toNat && c.toNat ≤ 13) || c.toNat = 32 || c.toNat = 0x85 ||
  c.toNat = 0xA0 || c.toNat = 0x1680 ||
  (0x2000 ≤ c.toNat && c.toNat ≤ 0x200A) ||
  c.toNat = 0x2028 || c.toNat = 0x2029 || c.toNat = 0x202F ||
  c.toNat = 0x205F || c.toNat = 0x3000

/-- Split a character list at every line feed; `n` separators yield `n + 1`
parts. -/
def splitNl : List Char → List (List Char)
  | [] => [[]]
  | c :: cs =>
    if c = '\n' then [] :: splitNl cs
    else
      match splitNl cs with
      | [] => [[c]]
      | l :: ls => (c :: l) :: ls

/-- Drop the carriage return `str::lines` strips from a `\r\n` ending. -/
def stripCR (l : List Char) : List Char :=
  if l.getLast? = some '\r' then l.dropLast else l

/-- Rust's `str::lines`: split at `\n` (also consuming a preceding `\r`);
a final line terminator does not produce a trailing empty line. -/
def lines (s : List Char) : List (List Char) :=
  let parts := splitNl s
  let parts :=
    if s = [] then []
    else if s.getLast? = some '\n' then parts.dropLast else parts
  parts.map stripCR

/-- Rust's `str::trim`: remove whitespace from both ends. -/
def trim (l : List Char) : List Char :=
  ((l.dropWhile (fun c => isWhitespace c)).reverse.dropWhile
    (fun c => isWhitespace c)).reverse

end RustStr

/-- Map a fallible function over a list, propagating the first failure; this
models a Rust iterator chain whose closure can panic. -/
def mapOpt {α β : Type} (f : α → Option β) : List α → Option (List β)
  | [] => some []
  | x :: xs => do
    let y ← f x
    let ys ← mapOpt f xs
    pure (y :: ys)

/-! ## Day 25 (src/day25.rs) -/

namespace Day25

/-- The digit character produced by the `match` inside `to_base_5`
(src/day25.rs lines 4-11); `none` models the panicking wildcard arm. -/
def snafuChar (d : Int) : Option Char :=
  if d = -2 then some '=' else
  if d = -1 then some '-' else
  if d = 0 then some '0' else
  if d = 1 then some '1' else
  if d = 2 then some '2' else none

/-- The `while base_10 != 0` loop of `to_base_5` (src/day25.rs lines 1-16),
with an explicit fuel counter.  Each pass emits the digit of
`(b + 2) % 5 - 2`, prepends it to the result string, and continues with
`(b + 2) / 5`; on `i64` both `%` and `/` truncate toward zero, i.e.
`Int.tmod` and `Int.tdiv`.  Prepending at each step means the recursive
result comes first, the current digit last. -/
def to_base_5_fuel : Nat → Int → Option (List Char)
  | 0, _ => none
  | fuel + 1, b =>
    if b = 0 then some []
    else do
      let c ← snafuChar ((b + 2).tmod 5 - 2)
      let rest ← to_base_5_fuel fuel ((b + 2).tdiv 5)
      pure (rest ++ [c])

/-- `to_base_5` (src/day25.rs lines 1-16).  `b.natAbs` strictly decreases on
every pass of the loop, so `b.natAbs + 1` units of fuel always suffice. -/
def to_base_5 (b : Int) : Option (List Char) :=
  to_base_5_fuel (b.natAbs + 1) b

/-- The digit value of one character in `from_base_5`
(src/day25.rs lines 21-28); `none` models the panicking wildcard arm. -/
def digitVal (c : Char) : Option Int :=
  if c = '=' then some (-2) else
  if c = '-' then some (-1) else
  if c = '0' then some 0 else
  if c = '1' then some 1 else
  if c = '2' then some 2 else none

/-- The loop of `from_base_5` (src/day25.rs lines 18-32): the characters are
consumed in reverse order with an increasing place counter, accumulating
`digit * 5 ^ place`. -/
def from_base_5_aux : List Char → Nat → Option Int
  | [], _ => some 0
  | c :: cs, place => do
    let d ← digitVal c
    let rest ← from_base_5_aux cs (place + 1)
    pure (rest + d * 5 ^ place)

/-- `from_base_5` (src/day25.rs lines 18-32). -/
def from_base_5 (s : List Char) : Option Int :=
  from_base_5_aux s.reverse 0

/-- `solve` (src/day25.rs lines 34-43): trim every line, drop empty ones,
convert each with `from_base_5`, and render the sum with `to_base_5`. -/
def solve (input : List Char) : Option (List Char) := do
  let ls := ((RustStr.lines input).map RustStr.trim).filter
    (fun l => !l.isEmpty)
  let vals ← mapOpt from_base_5 ls
  to_base_5 vals.sum

end Day25

/-! ## Day 6 (src/day6.rs) -/

namespace Day6

/-- The loop of `compute::<N>` (src/day6.rs lines 11-23): slide a window of
at most `N` characters over the input and return `i + 1` at the first index
`i` whose window has `N` distinct characters; falling off the end models the
`panic!("Didn't find marker")`. -/
def compute_aux (N : Nat) : List Char → Nat → List Char → Option Nat
  | [], _, _ => none
  | c :: cs, i, window =>
    let w1 := window ++ [c]
    let w2 := if N < w1.length then w1.drop 1 else w1
    if w2.dedup.length = N then some (i + 1) else compute_aux N cs (i + 1) w2

/-- `compute::<N>` (src/day6.rs lines 11-23). -/
def compute (N : Nat) (input : List Char) : Option Nat :=
  compute_aux N input 0 []

end Day6

/-! ## Day 12 (src/day12.rs) -/

namespace Day12

/-- `Grid` (src/day12.rs lines 3-8), with `endPos` for the field Rust calls
`end`. -/
structure Grid where
  cells : List (List Int)
  start : Nat × Nat
  endPos : Nat × Nat
  size : Nat × Nat
  deriving Repr, DecidableEq

/-- Elevation of one character (src/day12.rs lines 22-30): `S` counts as
`a`, `E` as `z`, everything else as `c as isize - 'a' as isize`. -/
def cellVal (c : Char) : Int :=
  if c = 'S' then 0 else if c = 'E' then 25
  else (c.toNat : Int) - ('a'.toNat : Int)

/-- The coordinates of the last occurrence of `target` in row-major order;
`Grid::new` overwrites `start`/`end` on every occurrence, so the last one
wins. -/
def lastPos (target : Char) (rows : List (List Char)) : Option (Nat × Nat) :=
  rows.enum.foldl
    (fun acc yrow =>
      yrow.2.enum.foldl
        (fun acc2 xc => if xc.2 = target then some (xc.1, yrow.1) else acc2)
        acc)
    none

/-- `Grid::new` (src/day12.rs lines 10-44): trim lines, drop empty ones,
record elevations and the (last) `S`/`E` positions; the `unwrap`s on
`first()`, `start` and `end` are the `none` cases. -/
def Grid.new (input : List Char) : Option Grid := do
  let ls := ((RustStr.lines input).map RustStr.trim).filter
    (fun l => !l.isEmpty)
  let cells := ls.map (fun row => row.map cellVal)
  let xdim ← (cells.head?).map List.length
  let s ← lastPos 'S' ls
  let e ← lastPos 'E' ls
  pure { cells, start := s, endPos := e, size := (xdim, cells.length) }

/-- `usize::MAX`: `wrapping_sub(1)` of `0` lands here. -/
def USIZE_MAX : Nat := 2 ^ 64 - 1

/-- `usize::wrapping_sub(1)` for indices below `2^64`. -/
def wrapSub (a : Nat) : Nat := if a = 0 then USIZE_MAX else a - 1

/-- `grid.cells[y][x]`; the solver only indexes in bounds (the BFS filters
on `size` first), so the default is never consulted. -/
def elev (g : Grid) (p : Nat × Nat) : Int :=
  (((g.cells.get? p.2).getD []).get? p.1).getD 0

/-- One yield of the `BFS` iterator (src/day12.rs lines 63-88): pop queue
entries until an unseen position appears, mark it seen, append its admissible
neighbours (in bounds, and the popped cell's elevation is at most the
neighbour's plus one — the search walks backwards from `end`), and yield the
position with its step count. -/
def bfs_next (g : Grid) :
    List ((Nat × Nat) × Nat) → List (Nat × Nat) →
    Option (((Nat × Nat) × Nat) × List ((Nat × Nat) × Nat) × List (Nat × Nat))
  | [], _ => none
  | (pos, steps) :: rest, seen =>
    if pos ∈ seen then bfs_next g rest seen
    else
      let cands := [(pos.1, pos.2 + 1), (pos.1, wrapSub pos.2),
        (pos.1 + 1, pos.2), (wrapSub pos.1, pos.2)]
      let nbrs := ((cands.filter
          (fun p => p.1 < g.size.1 && p.2 < g.size.2)).filter
          (fun p => elev g pos ≤ elev g p + 1)).map
          (fun p => (p, steps + 1))
      some ((pos, steps), rest ++ nbrs, pos :: seen)

/-- `solve`'s `find` over the BFS iterator (src/day12.rs lines 90-96): stop
at the first yielded position equal to `start`.  Each yield marks a fresh
in-bounds position seen, so `size.0 * size.1 + 1` iterations always
suffice. -/
def solve_go (g : Grid) :
    Nat → List ((Nat × Nat) × Nat) → List (Nat × Nat) → Option Nat
  | 0, _, _ => none
  | fuel + 1, queue, seen =>
    match bfs_next g queue seen with
    | none => none
    | some ((pos, steps), queue2, seen2) =>
      if pos = g.start then some steps else solve_go g fuel queue2 seen2

/-- `solve` (src/day12.rs lines 90-96). -/
def solve (input : List Char) : Option Nat := do
  let g ← Grid.new input
  solve_go g (g.size.1 * g.size.2 + 1) [(g.endPos, 0)] []

/-- Specification-side edge relation, following the spec's words: a forward
step moves between 4-adjacent cells, stays in bounds, and the elevation
rises by at most one. -/
def specEdge (g : Grid) (a b : Nat × Nat) : Bool :=
  ((a.1 = b.1 && (a.2 + 1 = b.2 || b.2 + 1 = a.2)) ||
   (a.2 = b.2 && (a.1 + 1 = b.1 || b.1 + 1 = a.1))) &&
  b.1 < g.size.1 && b.2 < g.size.2 &&
  elev g b ≤ elev g a + 1

/-- Specification-side paths: a forward path of exactly `n` steps from the
start cell to `p`. -/
def PathTo (g : Grid) : Nat → (Nat × Nat) → Prop
  | 0, p => p = g.start
  | n + 1, p => ∃ q, PathTo g n q ∧ specEdge g q p

/-- All in-bounds cells of the grid. -/
def allCells (g : Grid) : List (Nat × Nat) :=
  (List.range g.size.2).flatMap (fun y => (List.range g.size.1).map (fun x => (x, y)))

/-- Cells reachable from the start in at most `n` forward steps. -/
def reachN (g : Grid) : Nat → List (Nat × Nat)
  | 0 => [g.start]
  | n + 1 =>
    let R := reachN g n
    (R ++ R.flatMap (fun q => (allCells g).filter (fun b => specEdge g q b))).dedup

/-- The 5-line example grid of day 12's unit tests (src/day12.rs lines
111-117), with its leading newline and indentation. -/
def exampleInput : List Char :=
  ("\n        Sabqponm\n        abcryxxl\n        accszExk\n" ++
   "        acctuvwj\n        abdefghi\n    ").toList

/-- The parsed form of the example grid. -/
def exampleGrid : Grid :=
  { cells := [[0, 0, 1, 16, 15, 14, 13, 12],
      [0, 1, 2, 17, 24, 23, 23, 11],
      [0, 2, 2, 18, 25, 25, 23, 10],
      [0, 2, 2, 19, 20, 21, 22, 9],
      [0, 1, 3, 4, 5, 6, 7, 8]],
    start := (0, 0), endPos := (5, 2), size := (8, 5) }

end Day12

/-! ## Day 24 (src/day24.rs) -/

namespace Day24

/-- `WindTracker` (src/day24.rs lines 8-13): two `u128` bitsets over one row
or column of the board, modelled as `Nat`s below `2 ^ 128`.
`WindTracker::new` asserts `length < 128`. -/
structure WindTracker where
  l_bits : Nat
  r_bits : Nat
  length : Nat
  deriving Repr, DecidableEq

/-- `WindTracker::new` (src/day24.rs lines 16-23). -/
def WindTracker.new (length : Nat) : WindTracker :=
  { l_bits := 0, r_bits := 0, length }

/-- `WindTracker::set_rightward` (src/day24.rs lines 25-27). -/
def WindTracker.set_rightward (w : WindTracker) (pos : Nat) : WindTracker :=
  { w with l_bits := w.l_bits ||| (1 <<< pos) }

/-- `WindTracker::set_leftward` (src/day24.rs lines 29-31). -/
def WindTracker.set_leftward (w : WindTracker) (pos : Nat) : WindTracker :=
  { w with r_bits := w.r_bits ||| (1 <<< pos) }

/-- `WindTracker::is_clear` (src/day24.rs lines 33-42): rotate `l_bits` left
by `time % length` and `r_bits` right by the same amount (within the low
`length` bits) and test the bit at `pos`.  The `% 2 ^ 128` models the `u128`
left shifts discarding high bits. -/
def WindTracker.is_clear (w : WindTracker) (time pos : Nat) : Bool :=
  let time := time % w.length
  let m0 := (1 <<< (w.length - time)) - 1
  let m1 := (1 <<< time) - 1
  let bits :=
    (((w.l_bits &&& m0) <<< time) % 2 ^ 128) |||
    ((w.l_bits >>> (w.length - time)) &&& m1) |||
    ((w.r_bits >>> time) &&& m0) |||
    (((w.r_bits &&& m1) <<< (w.length - time)) % 2 ^ 128)
  bits &&& (1 <<< pos) == 0

/-- A `WindTracker` as `Board::new` builds it: `WindTracker::new` followed by
a sequence of `set_rightward` and `set_leftward` calls. -/
def buildTracker (L : Nat) (rights lefts : List Nat) : WindTracker :=
  lefts.foldl WindTracker.set_leftward
    (rights.foldl WindTracker.set_rightward (WindTracker.new L))

/-- `State` (src/day24.rs lines 45-49); positions as pairs of integers
(`i8` stays far from its bounds on any board the assertions admit). -/
structure State where
  time : Nat
  pos : Int × Int
  deriving Repr, DecidableEq

/-- `Board` (src/day24.rs lines 51-56). -/
structure Board where
  ver_winds : List WindTracker
  hor_winds : List WindTracker
  start_pos : Int × Int
  end_pos : Int × Int
  deriving Repr

/-- The `valid_state` closure of `next_states` (src/day24.rs lines 96-105). -/
def valid_state (b : Board) (s : State) : Bool :=
  let width : Int := b.ver_winds.length
  let height : Int := b.hor_winds.length
  if s.pos = b.start_pos ∨ s.pos = b.end_pos then true
  else if s.pos.1 < 0 ∨ s.pos.2 < 0 ∨ s.pos.1 ≥ width ∨ s.pos.2 ≥ height then
    false
  else
    ((b.hor_winds.getD s.pos.2.toNat (WindTracker.new 0)).is_clear s.time
      s.pos.1.toNat)
    && ((b.ver_winds.getD s.pos.1.toNat (WindTracker.new 0)).is_clear s.time
      s.pos.2.toNat)

/-- `Board::next_states` (src/day24.rs lines 93-113). -/
def next_states (b : Board) (s : State) : List State :=
  (([(-1, 0), (1, 0), (0, -1), (0, 1), (0, 0)] : List (Int × Int)).map
    (fun off => State.mk (s.time + 1) (s.pos.1 + off.1, s.pos.2 + off.2))).filter
    (fun s2 => valid_state b s2)

/-- `dist_to_goal` of `wrap_cost` (src/day24.rs lines 116-120). -/
def dist (endp : Int × Int) (p : Int × Int) : Nat :=
  (p.1 - endp.1).natAbs + (p.2 - endp.2).natAbs

/-- `best_case_cost` of `wrap_cost`. -/
def cost (endp : Int × Int) (s : State) : Nat := s.time + dist endp s.pos

/-- `wrap_cost` (src/day24.rs lines 116-120). -/
def wrap_cost (endp : Int × Int) (s : State) : Int × State :=
  (-(cost endp s : Int), s)

/-- The derived lexicographic order on `(-best_case_cost, State)` that
`BinaryHeap` maximises (`State` derives `Ord` on `(time, pos)`). -/
def entryLe (a b : Int × State) : Bool :=
  decide (a.1 < b.1 ∨ (a.1 = b.1 ∧ (a.2.time < b.2.time ∨ (a.2.time = b.2.time
    ∧ (a.2.pos.1 < b.2.pos.1 ∨ (a.2.pos.1 = b.2.pos.1
      ∧ a.2.pos.2 ≤ b.2.pos.2))))))

/-- `BinaryHeap::pop`: remove and return a maximal entry. -/
def popMax (l : List (Int × State)) :
    Option ((Int × State) × List (Int × State)) :=
  match l with
  | [] => none
  | e :: rest =>
    let m := rest.foldl (fun acc x => if entryLe acc x then x else acc) e
    some (m, l.erase m)

/-- The `while let Some(..) = queue.pop()` loop of `fastest_path`
(src/day24.rs lines 121-132), with explicit fuel; `none` is the final
`panic!()` (or fuel exhaustion). -/
def astar (b : Board) (endp : Int × Int) :
    Nat → List (Int × State) → List State → Option Nat
  | 0, _, _ => none
  | fuel + 1, queue, seen =>
    match popMax queue with
    | none => none
    | some ((_, s), queue2) =>
      if s ∈ seen then astar b endp fuel queue2 seen
      else if s.pos = endp then some s.time
      else
        astar b endp fuel
          (queue2 ++ (next_states b s).map (wrap_cost endp)) (s :: seen)

/-- `Board::fastest_path` (src/day24.rs lines 115-133). -/
def fastest_path (b : Board) (pos : Int × Int) (endp : Int × Int)
    (time : Nat) (fuel : Nat) : Option Nat :=
  astar b endp fuel [wrap_cost endp ⟨time, pos⟩] []

/-- Exactly `k` moves (wait or step, each valid on arrival) from `s0`. -/
def ReachIn (b : Board) : Nat → State → State → Prop
  | 0, s0, s => s = s0
  | k + 1, s0, s => ∃ s1, ReachIn b k s0 s1 ∧ s ∈ next_states b s1

/-- Reachability by any number of moves. -/
def Reach (b : Board) (s0 s : State) : Prop := ∃ k, ReachIn b k s0 s

/-- Loop invariant of `fastest_path`'s while loop: every queue entry is a
reachable state paired with its (negated) best-case cost, seen states are
reachable non-goal states, the start is accounted for, and every frontier
edge out of a seen state into an unseen one has its entry in the queue. -/
structure Inv (b : Board) (endp : Int × Int) (s0 : State)
    (queue : List (Int × State)) (seen : List State) : Prop where
  queue_reach : ∀ e ∈ queue, Reach b s0 e.2 ∧ e.1 = -(cost endp e.2 : Int)
  seen_reach : ∀ v ∈ seen, Reach b s0 v
  seen_not_goal : ∀ v ∈ seen, v.pos ≠ endp
  root : s0 ∈ seen ∨ wrap_cost endp s0 ∈ queue
  frontier_edge : ∀ v ∈ seen, ∀ w ∈ next_states b v, w ∉ seen →
    wrap_cost endp w ∈ queue

/-- All positions a valid state can occupy: the in-bounds grid cells plus
the start and end positions and the initial position. -/
def posFinset (b : Board) (p0 : Int × Int) : Finset (Int × Int) :=
  {b.start_pos, b.end_pos, p0} ∪
    ((Finset.range b.ver_winds.length) ×ˢ (Finset.range b.hor_winds.length)).image
      (fun q => ((q.1 : Int), (q.2 : Int)))

/-- All states reachable within a time bound. -/
def stateFinset (b : Board) (p0 : Int × Int) (T : Nat) : Finset State :=
  ((Finset.range (T + 1)) ×ˢ (posFinset b p0)).image
    (fun q => State.mk q.1 q.2)

theorem next_states_mem {b : Board} {s w : State} :
    w ∈ next_states b s ↔
      (∃ off ∈ ([(-1, 0), (1, 0), (0, -1), (0, 1), (0, 0)] : List (Int × Int)),
        w = State.mk (s.time + 1) (s.pos.1 + off.1, s.pos.2 + off.2)) ∧
      valid_state b w = true := by
  unfold next_states
  rw [List.mem_filter, List.mem_map]
  constructor
  · rintro ⟨⟨off, hoff, rfl⟩, hv⟩
    exact ⟨⟨off, hoff, rfl⟩, hv⟩
  · rintro ⟨⟨off, hoff, rfl⟩, hv⟩
    exact ⟨⟨off, hoff, rfl⟩, hv⟩

theorem next_states_time {b : Board} {s w : State}
    (h : w ∈ next_states b s) : w.time = s.time + 1 := by
  obtain ⟨⟨off, _, rfl⟩, _⟩ := next_states_mem.mp h
  rfl

/-- A* consistency: the heuristic cost is monotone along edges. -/
theorem cost_mono {b : Board} {endp : Int × Int} {s w : State}
    (h : w ∈ next_states b s) : cost endp s ≤ cost endp w := by
  obtain ⟨⟨off, hoff, rfl⟩, _⟩ := next_states_mem.mp h
  simp only [List.mem_cons, List.not_mem_nil, or_false] at hoff
  unfold cost dist
  rcases hoff with rfl | rfl | rfl | rfl | rfl <;> simp <;> omega

theorem entryLe_refl (a : Int × State) : entryLe a a = true := by
  unfold entryLe
  simp

theorem entryLe_total (a b : Int × State) :
    entryLe a b = true ∨ entryLe b a = true := by
  unfold entryLe
  simp only [decide_eq_true_eq]
  omega

theorem entryLe_trans {a b c : Int × State} (h1 : entryLe a b = true)
    (h2 : entryLe b c = true) : entryLe a c = true := by
  unfold entryLe at *
  simp only [decide_eq_true_eq] at *
  omega

theorem entryLe_fst {a b : Int × State} (h : entryLe a b = true) :
    a.1 ≤ b.1 := by
  unfold entryLe at h
  simp only [decide_eq_true_eq] at h
  omega

theorem foldl_pick_mem (e : Int × State) (rest : List (Int × State)) :
    rest.foldl (fun acc x => if entryLe acc x then x else acc) e ∈
      e :: rest := by
  induction rest generalizing e with
  | nil => simp
  | cons x xs ih =>
    simp only [List.foldl_cons]
    have := ih (if entryLe e x then x else e)
    by_cases h : entryLe e x = true
    · rw [if_pos h] at this ⊢
      rcases List.mem_cons.mp this with h2 | h2
      · exact List.mem_cons.mpr (Or.inr (by rw [h2]; simp))
      · exact List.mem_cons.mpr (Or.inr (List.mem_cons.mpr (Or.inr h2)))
    · rw [if_neg h] at this ⊢
      rcases List.mem_cons.mp this with h2 | h2
      · exact List.mem_cons.mpr (Or.inl h2)
      · exact List.mem_cons.mpr (Or.inr (List.mem_cons.mpr (Or.inr h2)))

theorem foldl_pick_max (e : Int × State) (rest : List (Int × State)) :
    ∀ x ∈ e :: rest,
      entryLe x (rest.foldl (fun acc x => if entryLe acc x then x else acc) e)
        = true := by
  induction rest generalizing e with
  | nil =>
    intro x hx
    simp only [List.mem_singleton] at hx
    subst hx
    exact entryLe_refl x
  | cons y ys ih =>
    intro x hx
    simp only [List.foldl_cons]
    have hbase : entryLe (if entryLe e y then y else e)
        (ys.foldl (fun acc x => if entryLe acc x then x else acc)
          (if entryLe e y then y else e)) = true :=
      ih (if entryLe e y then y else e) _ (List.mem_cons_self _ _)
    have hey : entryLe e (if entryLe e y then y else e) = true := by
      by_cases h : entryLe e y = true
      · rw [if_pos h]; exact h
      · rw [if_neg h]; exact entryLe_refl e
    have hyy : entryLe y (if entryLe e y then y else e) = true := by
      by_cases h : entryLe e y = true
      · rw [if_pos h]; exact entryLe_refl y
      · rw [if_neg h]
        rcases entryLe_total y e with h2 | h2
        · exact h2
        · exact absurd h2 h
    rcases List.mem_cons.mp hx with rfl | hx2
    · exact entryLe_trans hey hbase
    · rcases List.mem_cons.mp hx2 with rfl | hx3
      · exact entryLe_trans hyy hbase
      · exact ih (if entryLe e y then y else e) x
          (List.mem_cons.mpr (Or.inr hx3))

theorem popMax_spec {l : List (Int × State)} {m : Int × State}
    {rest : List (Int × State)} (h : popMax l = some (m, rest)) :
    m ∈ l ∧ (∀ x ∈ l, entryLe x m = true) ∧ rest = l.erase m := by
  cases l with
  | nil => simp [popMax] at h
  | cons e tl =>
    unfold popMax at h
    simp only [Option.some.injEq, Prod.mk.injEq] at h
    obtain ⟨rfl, rfl⟩ := h
    exact ⟨foldl_pick_mem e tl, foldl_pick_max e tl, rfl⟩

theorem popMax_none {l : List (Int × State)} (h : popMax l = none) :
    l = [] := by
  cases l with
  | nil => rfl
  | cons e tl => simp [popMax] at h

theorem popMax_length {l : List (Int × State)} {m : Int × State}
    {rest : List (Int × State)} (h : popMax l = some (m, rest)) :
    rest.length + 1 = l.length := by
  obtain ⟨hm, _, hr⟩ := popMax_spec h
  rw [hr, List.length_erase_of_mem hm]
  have : l.length ≠ 0 := by
    intro h0
    rw [List.length_eq_zero.mp h0] at hm
    simp at hm
  omega

end Day24

namespace Day24

theorem reach_step {b : Board} {s0 s w : State} (h : Reach b s0 s)
    (hw : w ∈ next_states b s) : Reach b s0 w := by
  obtain ⟨k, hk⟩ := h
  exact ⟨k + 1, s, hk, hw⟩

theorem inv_skip {b : Board} {endp : Int × Int} {s0 : State}
    {queue queue2 : List (Int × State)} {seen : List State}
    {c : Int} {s : State} (hInv : Inv b endp s0 queue seen)
    (hpop : popMax queue = some ((c, s), queue2)) (hseen : s ∈ seen) :
    Inv b endp s0 queue2 seen := by
  obtain ⟨hm, _, hrest⟩ := popMax_spec hpop
  subst hrest
  refine ⟨?_, hInv.seen_reach, hInv.seen_not_goal, ?_, ?_⟩
  · intro e he
    exact hInv.queue_reach e (List.mem_of_mem_erase he)
  · by_cases hs0 : s0 ∈ seen
    · exact Or.inl hs0
    · rcases hInv.root with h | h
      · exact Or.inl h
      · refine Or.inr ((List.mem_erase_of_ne ?_).mpr h)
        intro heq
        have h2 := congrArg Prod.snd heq
        simp only [wrap_cost] at h2
        rw [h2] at hs0
        exact hs0 hseen
  · intro v hv w hw hwseen
    refine (List.mem_erase_of_ne ?_).mpr
      (hInv.frontier_edge v hv w hw hwseen)
    intro heq
    have h2 := congrArg Prod.snd heq
    simp only [wrap_cost] at h2
    rw [h2] at hwseen
    exact hwseen hseen

theorem inv_mark {b : Board} {endp : Int × Int} {s0 : State}
    {queue queue2 : List (Int × State)} {seen : List State}
    {c : Int} {s : State} (hInv : Inv b endp s0 queue seen)
    (hpop : popMax queue = some ((c, s), queue2)) (hseen : s ∉ seen)
    (hgoal : s.pos ≠ endp) :
    Inv b endp s0 (queue2 ++ (next_states b s).map (wrap_cost endp))
      (s :: seen) := by
  obtain ⟨hm, _, hrest⟩ := popMax_spec hpop
  subst hrest
  have hreachs : Reach b s0 s := (hInv.queue_reach (c, s) hm).1
  refine ⟨?_, ?_, ?_, ?_, ?_⟩
  · intro e he
    rcases List.mem_append.mp he with h | h
    · exact hInv.queue_reach e (List.mem_of_mem_erase h)
    · obtain ⟨w, hw, rfl⟩ := List.mem_map.mp h
      exact ⟨reach_step hreachs hw, rfl⟩
  · intro v hv
    rcases List.mem_cons.mp hv with rfl | hv2
    · exact hreachs
    · exact hInv.seen_reach v hv2
  · intro v hv
    rcases List.mem_cons.mp hv with rfl | hv2
    · exact hgoal
    · exact hInv.seen_not_goal v hv2
  · by_cases hs0 : s0 = s
    · exact Or.inl (List.mem_cons.mpr (Or.inl hs0))
    · by_cases hs0seen : s0 ∈ seen
      · exact Or.inl (List.mem_cons.mpr (Or.inr hs0seen))
      · rcases hInv.root with h | h
        · exact absurd h hs0seen
        · refine Or.inr (List.mem_append.mpr (Or.inl
            ((List.mem_erase_of_ne ?_).mpr h)))
          intro heq
          have h2 := congrArg Prod.snd heq
          simp only [wrap_cost] at h2
          exact hs0 h2
  · intro v hv w hw hwseen
    have hwne : w ≠ s := fun h => hwseen (List.mem_cons.mpr (Or.inl h))
    have hwold : w ∉ seen := fun h => hwseen (List.mem_cons.mpr (Or.inr h))
    rcases List.mem_cons.mp hv with rfl | hv2
    · exact List.mem_append.mpr (Or.inr (List.mem_map.mpr ⟨w, hw, rfl⟩))
    · refine List.mem_append.mpr (Or.inl ((List.mem_erase_of_ne ?_).mpr
        (hInv.frontier_edge v hv2 w hw hwold)))
      intro heq
      have h2 := congrArg Prod.snd heq
      simp only [wrap_cost] at h2
      exact hwne h2

/-- With the invariant, any reachable unseen state has an ancestor on the
queue of no greater heuristic cost. -/
theorem frontier_entry {b : Board} {endp : Int × Int} {s0 : State}
    {queue : List (Int × State)} {seen : List State}
    (hInv : Inv b endp s0 queue seen) :
    ∀ k (g : State), ReachIn b k s0 g → g ∉ seen →
      ∃ w, wrap_cost endp w ∈ queue ∧ cost endp w ≤ cost endp g := by
  intro k
  induction k with
  | zero =>
    intro g hg hgseen
    have : g = s0 := hg
    subst this
    rcases hInv.root with h | h
    · exact absurd h hgseen
    · exact ⟨g, h, le_refl _⟩
  | succ k ih =>
    intro g hg hgseen
    obtain ⟨u, hu, hstep⟩ := hg
    by_cases hus : u ∈ seen
    · exact ⟨g, hInv.frontier_edge u hus g hstep hgseen, le_refl _⟩
    · obtain ⟨w, hw, hle⟩ := ih u hu hus
      exact ⟨w, hw, le_trans hle (cost_mono hstep)⟩

theorem dist_self (p : Int × Int) : dist p p = 0 := by
  simp [dist]

/-- Soundness of the A* loop: under the invariant, a returned time is the
time of a reachable goal state, and no reachable goal state is faster. -/
theorem astar_sound {b : Board} {endp : Int × Int} {s0 : State} :
    ∀ fuel (queue : List (Int × State)) (seen : List State),
      Inv b endp s0 queue seen →
      ∀ t, astar b endp fuel queue seen = some t →
        (∃ s, Reach b s0 s ∧ s.pos = endp ∧ s.time = t) ∧
        (∀ g, Reach b s0 g → g.pos = endp → t ≤ g.time) := by
  intro fuel
  induction fuel with
  | zero => intro queue seen _ t h; simp [astar] at h
  | succ fuel ih =>
    intro queue seen hInv t h
    rw [astar] at h
    cases hpop : popMax queue with
    | none => rw [hpop] at h; exact absurd h (by simp)
    | some pr =>
      obtain ⟨⟨c, s⟩, queue2⟩ := pr
      rw [hpop] at h
      dsimp only at h
      obtain ⟨hmem, hdom, _⟩ := popMax_spec hpop
      by_cases hseen : s ∈ seen
      · rw [if_pos hseen] at h
        exact ih queue2 seen (inv_skip hInv hpop hseen) t h
      · rw [if_neg hseen] at h
        by_cases hgoal : s.pos = endp
        · rw [if_pos hgoal] at h
          have ht : s.time = t := by injection h
          subst ht
          refine ⟨⟨s, (hInv.queue_reach (c, s) hmem).1, hgoal, rfl⟩, ?_⟩
          intro g hgr hgpos
          obtain ⟨k, hk⟩ := hgr
          have hgseen : g ∉ seen := fun hin =>
            hInv.seen_not_goal g hin hgpos
          obtain ⟨w, hw, hle⟩ := frontier_entry hInv k g hk hgseen
          have hdw := entryLe_fst (hdom _ hw)
          have hc : c = -(cost endp s : Int) :=
            (hInv.queue_reach (c, s) hmem).2
          simp only [wrap_cost, hc] at hdw
          have h1 : cost endp s ≤ cost endp w := by omega
          have h2 : cost endp g = g.time := by
            unfold cost
            rw [hgpos, dist_self]
            omega
          have h3 : s.time ≤ cost endp s := Nat.le_add_right _ _
          omega
        · rw [if_neg hgoal] at h
          exact ih _ _ (inv_mark hInv hpop hseen hgoal) t h

theorem valid_pos_mem {b : Board} {s : State} (p0 : Int × Int)
    (h : valid_state b s = true) : s.pos ∈ posFinset b p0 := by
  unfold valid_state at h
  by_cases h1 : s.pos = b.start_pos ∨ s.pos = b.end_pos
  · unfold posFinset
    rcases h1 with h1 | h1 <;> rw [h1] <;> simp
  · rw [if_neg h1] at h
    by_cases h2 : s.pos.1 < 0 ∨ s.pos.2 < 0 ∨
        s.pos.1 ≥ (b.ver_winds.length : Int) ∨
        s.pos.2 ≥ (b.hor_winds.length : Int)
    · rw [if_pos h2] at h
      exact absurd h (by simp)
    · push_neg at h2
      obtain ⟨hx0, hy0, hxw, hyh⟩ := h2
      unfold posFinset
      refine Finset.mem_union.mpr (Or.inr (Finset.mem_image.mpr
        ⟨(s.pos.1.toNat, s.pos.2.toNat), ?_, ?_⟩))
      · rw [Finset.mem_product]
        constructor <;> rw [Finset.mem_range] <;> omega
      · have e1 : (s.pos.1.toNat : Int) = s.pos.1 := Int.toNat_of_nonneg hx0
        have e2 : (s.pos.2.toNat : Int) = s.pos.2 := Int.toNat_of_nonneg hy0
        rw [e1, e2]

theorem reachin_pos {b : Board} {s0 s : State} {k : Nat}
    (h : ReachIn b k s0 s) : s.pos ∈ posFinset b s0.pos := by
  cases k with
  | zero =>
    have : s = s0 := h
    subst this
    unfold posFinset
    simp
  | succ k =>
    obtain ⟨u, _, hstep⟩ := h
    exact valid_pos_mem s0.pos (next_states_mem.mp hstep).2

theorem reachin_time {b : Board} {s0 s : State} {k : Nat}
    (h : ReachIn b k s0 s) : s.time = s0.time + k := by
  induction k generalizing s with
  | zero =>
    have : s = s0 := h
    subst this
    rfl
  | succ k ih =>
    obtain ⟨u, hu, hstep⟩ := h
    rw [next_states_time hstep, ih hu]
    omega

theorem stateFinset_mem {b : Board} {p0 : Int × Int} {T : Nat} {s : State} :
    s ∈ stateFinset b p0 T ↔ s.time ≤ T ∧ s.pos ∈ posFinset b p0 := by
  unfold stateFinset
  rw [Finset.mem_image]
  constructor
  · rintro ⟨q, hq, rfl⟩
    rw [Finset.mem_product, Finset.mem_range] at hq
    exact ⟨by dsimp only; omega, hq.2⟩
  · rintro ⟨ht, hp⟩
    refine ⟨(s.time, s.pos), ?_, rfl⟩
    rw [Finset.mem_product, Finset.mem_range]
    exact ⟨by omega, hp⟩

/-- Completeness of the A* loop: when a goal state is reachable, enough
fuel makes the loop return. -/
theorem astar_complete {b : Board} {endp : Int × Int} {s0 : State}
    {g : State} {kg : Nat} (hg : ReachIn b kg s0 g) (hgpos : g.pos = endp) :
    ∀ n (queue : List (Int × State)) (seen : List State),
      Inv b endp s0 queue seen →
      queue.length +
        6 * ((stateFinset b s0.pos g.time) \ seen.toFinset).card ≤ n →
      ∃ t, astar b endp (n + 1) queue seen = some t := by
  intro n
  induction n using Nat.strong_induction_on with
  | _ n ih =>
  intro queue seen hInv hpot
  have hgseen : g ∉ seen := fun hin => hInv.seen_not_goal g hin hgpos
  obtain ⟨w, hw, hle⟩ := frontier_entry hInv kg g hg hgseen
  have hqlen : 0 < queue.length :=
    List.length_pos.mpr (List.ne_nil_of_mem hw)
  rw [astar]
  cases hpop : popMax queue with
  | none =>
    rw [popMax_none hpop] at hw
    exact absurd hw (by simp)
  | some pr =>
    obtain ⟨⟨c, s⟩, queue2⟩ := pr
    dsimp only
    obtain ⟨hmem, hdom, _⟩ := popMax_spec hpop
    have hq2len : queue2.length + 1 = queue.length := popMax_length hpop
    by_cases hseen : s ∈ seen
    · rw [if_pos hseen]
      cases n with
      | zero => omega
      | succ m =>
        exact ih m (Nat.lt_succ_self m) queue2 seen
          (inv_skip hInv hpop hseen) (by omega)
    · rw [if_neg hseen]
      by_cases hgoal : s.pos = endp
      · rw [if_pos hgoal]
        exact ⟨s.time, rfl⟩
      · rw [if_neg hgoal]
        have hsmem : s ∈ stateFinset b s0.pos g.time := by
          rw [stateFinset_mem]
          constructor
          · have hdw := entryLe_fst (hdom _ hw)
            have hc : c = -(cost endp s : Int) :=
              (hInv.queue_reach (c, s) hmem).2
            simp only [wrap_cost, hc] at hdw
            have h2 : cost endp g = g.time := by
              unfold cost
              rw [hgpos, dist_self]
              omega
            have h3 : s.time ≤ cost endp s := Nat.le_add_right _ _
            omega
          · obtain ⟨ks, hks⟩ := (hInv.queue_reach (c, s) hmem).1
            exact reachin_pos hks
        have hsd : s ∈ (stateFinset b s0.pos g.time) \ seen.toFinset := by
          rw [Finset.mem_sdiff, List.mem_toFinset]
          exact ⟨hsmem, hseen⟩
        have hcard1 :
            0 < ((stateFinset b s0.pos g.time) \ seen.toFinset).card :=
          Finset.card_pos.mpr ⟨s, hsd⟩
        have hcard2 : ((stateFinset b s0.pos g.time)
            \ (s :: seen).toFinset).card =
            ((stateFinset b s0.pos g.time) \ seen.toFinset).card - 1 := by
          rw [List.toFinset_cons, Finset.sdiff_insert,
            Finset.card_erase_of_mem hsd]
        have hpush : ((next_states b s).map (wrap_cost endp)).length ≤ 5 := by
          rw [List.length_map]
          unfold next_states
          calc ((([(-1, 0), (1, 0), (0, -1), (0, 1), (0, 0)] :
              List (Int × Int)).map
              (fun off => State.mk (s.time + 1)
                (s.pos.1 + off.1, s.pos.2 + off.2))).filter
              (fun s2 => valid_state b s2)).length
              ≤ (([(-1, 0), (1, 0), (0, -1), (0, 1), (0, 0)] :
                List (Int × Int)).map
                (fun off => State.mk (s.time + 1)
                  (s.pos.1 + off.1, s.pos.2 + off.2))).length :=
                List.length_filter_le _ _
            _ = 5 := by simp
        cases n with
        | zero => omega
        | succ m =>
          refine ih m (Nat.lt_succ_self m) _ _
            (inv_mark hInv hpop hseen hgoal) ?_
          rw [List.length_append]
          omega

end Day24

/-! ## Day 20 (src/day20.rs) -/

namespace Day20

/-- `Direction` (src/day20.rs lines 27-30). -/
inductive Direction
  | Forwards
  | Backwards
  deriving Repr, DecidableEq

/-- The doubly-linked cyclic list of src/day20.rs (`Node` / `List`), as an
arena of `n` nodes addressed by index: `values i` is node `i`'s value and
`prev`/`next` are its two `Weak` links. -/
@[ext]
structure List20 (n : Nat) where
  values : Fin n → Int
  prev : Fin n → Fin n
  next : Fin n → Fin n

/-- One step of `NodeIter::next` (src/day20.rs lines 37-48). -/
def step {n : Nat} (a : List20 n) (dir : Direction) (i : Fin n) : Fin n :=
  match dir with
  | .Forwards => a.next i
  | .Backwards => a.prev i

/-- `Self::iter(dir, node).take(1 + distance).last()`: `distance` steps from
the node. -/
def walk {n : Nat} (a : List20 n) (dir : Direction) : Nat → Fin n → Fin n
  | 0, i => i
  | k + 1, i => walk a dir k (step a dir i)

/-- The "Remove the node from the list" block of `List::shift`
(src/day20.rs lines 101-106); the node's own links are left dangling, as in
the Rust code. -/
def unlinked {n : Nat} (a : List20 n) (node : Fin n) : List20 n :=
  { a with
    next := Function.update a.next (a.prev node) (a.next node),
    prev := Function.update a.prev (a.next node) (a.prev node) }

/-- The "Determine how far to shift, and in which direction" block of
`List::shift` (src/day20.rs lines 108-115): `offset.rem_euclid(len)` is
`Int.emod`, and a distance beyond `len / 2` walks backwards instead. -/
def shiftDistDir (n : Nat) (offset : Int) : Nat × Direction :=
  let len := n - 1
  let d0 := (offset % (len : Int)).toNat
  if d0 > len / 2 then (len - d0, .Backwards) else (d0, .Forwards)

/-- The "Find the new (prev, next) nodes" block of `List::shift`
(src/day20.rs lines 117-122): walk from the removed node's old `prev`. -/
def shiftTarget {n : Nat} (a : List20 n) (node : Fin n) (offset : Int) :
    Fin n :=
  let dd := shiftDistDir n offset
  walk (unlinked a node) dd.2 dd.1 (a.prev node)

/-- `List::shift` (src/day20.rs lines 100-129): unlink the node, walk to the
new predecessor, and relink the node after it. -/
def shift {n : Nat} (a : List20 n) (node : Fin n) (offset : Int) :
    List20 n :=
  let a1 := unlinked a node
  let W := shiftTarget a node offset
  let M := a1.next W
  { a1 with
    next := Function.update (Function.update a1.next W node) node M,
    prev := Function.update (Function.update a1.prev M node) node W }

/-- `List::mix` (src/day20.rs lines 131-134). -/
def mix {n : Nat} (a : List20 n) (node : Fin n) : List20 n :=
  shift a node (a.values node)

/-- Well-formedness of the arena: `prev` and `next` are mutually inverse at
every node and the `next` links form one single cycle through all `n`
nodes. -/
def WF {n : Nat} (a : List20 n) : Prop :=
  (∀ i, a.prev (a.next i) = i) ∧ (∀ i, a.next (a.prev i) = i) ∧
  (∀ i j : Fin n, ∃ k, walk a .Forwards k i = j)

/-- A concrete well-formed three-node cyclic list. -/
def ex3 : List20 3 :=
  { values := ![10, 20, 30], prev := ![2, 0, 1], next := ![1, 2, 0] }

end Day20

/-! ## Day 21 (src/day21.rs) -/

namespace Day21

/-- `Op` (src/day21.rs lines 15-21). -/
inductive Op
  | Mul
  | Div
  | Add
  | Sub
  deriving Repr, DecidableEq

/-- `Op::eval` (src/day21.rs lines 23-32); `i64` division truncates toward
zero, i.e. `Int.tdiv` (division by zero, which panics in Rust, is not hit by
the theorems below). -/
def Op.eval : Op → Int → Int → Int
  | .Add, l, r => l + r
  | .Sub, l, r => l - r
  | .Mul, l, r => l * r
  | .Div, l, r => l.tdiv r

/-- The `Display` character of an `Op` (src/day21.rs lines 34-43). -/
def Op.char : Op → Char
  | .Add => '+'
  | .Sub => '-'
  | .Mul => '*'
  | .Div => '/'

/-- `Monkey` (src/day21.rs lines 9-13). -/
inductive Monkey
  | Immediate (v : Int)
  | Delayed (lhs rhs : String) (op : Op)
  deriving Repr, DecidableEq

/-- `\w` of the parsing regex (src/day21.rs line 150). -/
def isWordChar (c : Char) : Bool :=
  c.isAlpha || c.isDigit || c = '_'

/-- The decimal value of a digit string (`str::parse::<isize>` on the `\d+`
capture). -/
def parseNum (l : List Char) : Nat :=
  l.foldl (fun acc c => acc * 10 + (c.toNat - '0'.toNat)) 0

/-- The `match` on the operator character (src/day21.rs lines 160-166);
`none` models the `panic!("Unknown operation")` arm. -/
def opOfChar (c : Char) : Option Op :=
  if c = '*' then some .Mul else
  if c = '/' then some .Div else
  if c = '+' then some .Add else
  if c = '-' then some .Sub else none

/-- One line of `parse` (src/day21.rs lines 149-174): the regex
`^(\w+): (?:(\w+) (.) (\w+)|(\d+))$`, then the operator match; `none` models
the `unwrap` on a failed regex match and the unknown-operator panic. -/
def parseLine (l : List Char) : Option (String × Monkey) := do
  let name := l.takeWhile isWordChar
  if name.isEmpty then none
  else
    match l.dropWhile isWordChar with
    | ':' :: ' ' :: rest => do
      let body ←
        (match rest.takeWhile isWordChar, rest.dropWhile isWordChar with
        | lhs, ' ' :: opc :: ' ' :: rest2 =>
          if lhs.isEmpty then none
          else
            let rhs := rest2.takeWhile isWordChar
            if rhs.isEmpty ∨ ¬(rest2.dropWhile isWordChar).isEmpty then none
            else do
              let op ← opOfChar opc
              some (Monkey.Delayed (String.mk lhs) (String.mk rhs) op)
        | _, _ =>
          if ¬rest.isEmpty ∧ rest.all (fun c => c.isDigit) then
            some (Monkey.Immediate (parseNum rest))
          else none)
      some (String.mk name, body)
    | _ => none

/-- `parse` over the whole input (src/day21.rs lines 149-174). -/
def parse (input : List Char) : Option (List (String × Monkey)) :=
  mapOpt parseLine
    (((RustStr.lines input).map RustStr.trim).filter (fun l => !l.isEmpty))

end Day21

namespace Day21

/-- `HashMap` lookup for the collected monkey map: on duplicate keys the
last insertion wins. -/
def mlookup (m : List (String × Monkey)) (k : String) : Option Monkey :=
  (m.reverse.find? (fun p => p.1 == k)).map (fun p => p.2)

/-- The dependency set `graph[name]` gets (src/day21.rs lines 121-127); a
`HashSet`, so `lhs = rhs` yields one element. -/
def depsOf : Monkey → List String
  | .Immediate _ => []
  | .Delayed l r _ => if l = r then [l] else [l, r]

/-- The key set of the monkey map. -/
def keysOf (monkeys : List (String × Monkey)) : List String :=
  (monkeys.map (fun p => p.1)).dedup

/-- The `while let Some(node) = stack.pop()` loop of `topsort`
(src/day21.rs lines 136-145), with explicit fuel (each iteration pops one
stack entry and total pushes are bounded). -/
def topsort_go (backward : String → List String) :
    Nat → List (String × List String) → List String → List String →
    List String
  | 0, _, _, result => result
  | fuel + 1, g, stack, result =>
    match stack with
    | [] => result
    | node :: stack1 =>
      let st := (backward node).foldl
        (fun (st : List (String × List String) × List String) dep =>
          let g2 := st.1.map
            (fun p => if p.1 = dep then (p.1, p.2.erase node) else p)
          let nowEmpty :=
            ((g2.find? (fun p => p.1 == dep)).map (fun p => p.2)) = some []
          (g2, if nowEmpty then dep :: st.2 else st.2))
        (g, stack1)
      topsort_go backward fuel st.1 st.2 (result ++ [node])

/-- `topsort` (src/day21.rs lines 117-147).  `seed` is the initial work
stack — the keys with no dependencies, in whatever order the `HashMap`
yields them; the iteration order of each `backward_graph` `HashSet` is fixed
to key order here (the determinism theorem below does not depend on the
order `topsortK` emits). -/
def topsortK (monkeys : List (String × Monkey)) (seed : List String) :
    List String :=
  let keys := keysOf monkeys
  let dep : String → List String := fun k =>
    match mlookup monkeys k with
    | some m => depsOf m
    | none => []
  let graph := keys.map (fun k => (k, dep k))
  let backward := fun node => keys.filter (fun k => decide (node ∈ dep k))
  topsort_go backward (keys.length * keys.length + seed.length + 1) graph
    seed []

/-- `HashMap` lookup of the computed values: the last insertion wins, and
the list grows at the head. -/
def vlookup (values : List (String × Int)) (k : String) : Option Int :=
  (values.find? (fun p => p.1 == k)).map (fun p => p.2)

/-- The evaluation loop of `solve` (src/day21.rs lines 179-185): process the
topologically sorted names in order, looking up each operand's value;
`none` models the panicking `monkeys[name]` / `values[lhs]` lookups. -/
def evalLoop (monkeys : List (String × Monkey)) :
    List String → List (String × Int) → Option (List (String × Int))
  | [], values => some values
  | name :: rest, values => do
    let m ← mlookup monkeys name
    let v ←
      match m with
      | .Immediate v => some v
      | .Delayed l r op => do
        let vl ← vlookup values l
        let vr ← vlookup values r
        some (op.eval vl vr)
    evalLoop monkeys rest ((name, v) :: values)

/-- `solve` (src/day21.rs lines 176-187); `seed` is the unspecified
`HashMap` iteration order feeding `topsort`'s work stack. -/
def solve (input : List Char) (seed : List String) : Option Int := do
  let monkeys ← parse input
  let values ← evalLoop monkeys (topsortK monkeys seed) []
  vlookup values "root"

/-- Reference evaluation of one monkey by fuel-bounded recursion on the
monkey map itself (not part of the Rust code; used to state that the
loop's results are order-independent). -/
def specEval (monkeys : List (String × Monkey)) : Nat → String → Option Int
  | 0, _ => none
  | fuel + 1, name => do
    let m ← mlookup monkeys name
    match m with
    | .Immediate v => some v
    | .Delayed l r op => do
      let vl ← specEval monkeys fuel l
      let vr ← specEval monkeys fuel r
      some (op.eval vl vr)

/-- Every value the evaluation loop has stored agrees with the reference
evaluation. -/
def Coherent (monkeys : List (String × Monkey))
    (values : List (String × Int)) : Prop :=
  ∀ p ∈ values, ∃ f, specEval monkeys f p.1 = some p.2

end Day21

namespace Day21

/-- `Expr` (src/day21.rs lines 77-81). -/
inductive Expr
  | BinaryOperation (lhs rhs : Expr) (op : Op)
  | Literal (v : Int)
  | Unknown
  deriving Repr, DecidableEq

/-- Decimal rendering of an `isize` under `{}` formatting. -/
def renderInt (v : Int) : List Char :=
  if v < 0 then '-' :: Nat.toDigits 10 v.natAbs else Nat.toDigits 10 v.natAbs

/-- The `Display` rendering of an `Expr` (src/day21.rs lines 99-115). -/
def Expr.render : Expr → List Char
  | .Unknown => ['x']
  | .Literal v => renderInt v
  | .BinaryOperation l r op =>
    '(' :: (l.render ++ [' ', op.char, ' '] ++ r.render ++ [')'])

/-- `SimplifiedExpr` (src/day21.rs lines 45-49). -/
inductive SimplifiedExpr
  | LhsExpr (lhs : SimplifiedExpr) (rhs : Int) (op : Op)
  | RhsExpr (lhs : Int) (rhs : SimplifiedExpr) (op : Op)
  | Unknown
  deriving Repr, DecidableEq

/-- `Expr::simplify` (src/day21.rs lines 84-96); `none` models the two
panics.  The match on `(lhs, rhs)` tries `(expr, Literal)` first, exactly as
the Rust arms do. -/
def Expr.simplify : Expr → Option SimplifiedExpr
  | .Unknown => some .Unknown
  | .Literal _ => none
  | .BinaryOperation l r op =>
    match r with
    | .Literal v => (Expr.simplify l).map (fun s => .LhsExpr s v op)
    | _ =>
      match l with
      | .Literal v => (Expr.simplify r).map (fun s => .RhsExpr v s op)
      | _ => none

/-- `SimplifiedExpr::find_unknown` (src/day21.rs lines 52-74). -/
def SimplifiedExpr.find_unknown : SimplifiedExpr → Int → Int
  | .Unknown, accum => accum
  | .LhsExpr lhs rhs op, accum =>
    lhs.find_unknown
      (match op with
       | .Mul => Op.Div.eval accum rhs
       | .Div => Op.Mul.eval accum rhs
       | .Add => Op.Sub.eval accum rhs
       | .Sub => Op.Add.eval accum rhs)
  | .RhsExpr lhs rhs op, accum =>
    rhs.find_unknown
      (match op with
       | .Mul => Op.Div.eval accum lhs
       | .Div => Op.Div.eval lhs accum
       | .Add => Op.Sub.eval accum lhs
       | .Sub => Op.Sub.eval lhs accum)

/-- Lookup in the expressions map of `get_expression`. -/
def elookup (exprs : List (String × Expr)) (k : String) : Option Expr :=
  (exprs.find? (fun p => p.1 == k)).map (fun p => p.2)

/-- The loop of `get_expression` (src/day21.rs lines 192-212), with the four
match arms in source order. -/
def exprLoop (monkeys : List (String × Monkey)) :
    List String → List (String × Expr) → Option (List (String × Expr))
  | [], acc => some acc
  | name :: rest, acc => do
    let m ← mlookup monkeys name
    let e ←
      if name = "humn" then some Expr.Unknown
      else
        match m with
        | .Delayed l r op =>
          if name = "root" then do
            let el ← elookup acc l
            let er ← elookup acc r
            some (Expr.BinaryOperation el er Op.Sub)
          else do
            let el ← elookup acc l
            let er ← elookup acc r
            some
              (match el, er with
               | Expr.Literal a, Expr.Literal b => Expr.Literal (op.eval a b)
               | _, _ => Expr.BinaryOperation el er op)
        | .Immediate v => some (Expr.Literal v)
    exprLoop monkeys rest ((name, e) :: acc)

/-- `get_expression` (src/day21.rs lines 189-214); `seed` as in `solve`. -/
def get_expression (input : List Char) (seed : List String) : Option Expr :=
  do
  let monkeys ← parse input
  let exprs ← exprLoop monkeys (topsortK monkeys seed) []
  elookup exprs "root"

/-- `solve_2` (src/day21.rs lines 216-220).  Besides the returned value, the
model records what the computation writes to standard output: the
`println!("{expr}")` line.  (If `simplify` panics the process has already
printed the line; the model returns `none` for those runs.) -/
def solve_2 (input : List Char) (seed : List String) :
    Option (Int × List String) := do
  let expr ← get_expression input seed
  let out := [String.mk expr.render]
  let s ← expr.simplify
  pure (s.find_unknown 0, out)

end Day21

namespace Day21

/-- A three-monkey input for concrete determinism checks. -/
def detExample : List Char := ("root: a + b\na: 1\nb: 2").toList

/-- A three-monkey input on which `solve_2` completes. -/
def printExample : List Char := ("root: humn - a\na: 1\nhumn: 5").toList

end Day21

/-! ## Theorems about day 25 -/

namespace Day25

theorem natAbs_step_lt (b : Int) (hb : b ≠ 0) :
    ((b + 2).tdiv 5).natAbs < b.natAbs := by
  have h2 : ((b + 2).tdiv 5).natAbs = (b + 2).natAbs / 5 := Int.natAbs_tdiv _ _
  omega

theorem to_base_5_fuel_congr :
    ∀ f₁ f₂ : Nat, ∀ b : Int, b.natAbs < f₁ → b.natAbs < f₂ →
      to_base_5_fuel f₁ b = to_base_5_fuel f₂ b := by
  intro f₁
  induction f₁ with
  | zero => intro f₂ b h1; omega
  | succ f ih =>
    intro f₂ b h1 h2
    cases f₂ with
    | zero => omega
    | succ f' =>
      by_cases hb : b = 0
      · subst hb; simp [to_base_5_fuel]
      · have hstep := natAbs_step_lt b hb
        simp only [to_base_5_fuel, hb, if_false]
        rw [ih f' ((b + 2).tdiv 5) (by omega) (by omega)]

/-- The recursion equation for `to_base_5`, independent of the fuel. -/
theorem to_base_5_eq (b : Int) :
    to_base_5 b = if b = 0 then some []
      else (do
        let c ← snafuChar ((b + 2).tmod 5 - 2)
        let rest ← to_base_5 ((b + 2).tdiv 5)
        pure (rest ++ [c])) := by
  by_cases hb : b = 0
  · subst hb; rfl
  · have hstep := natAbs_step_lt b hb
    unfold to_base_5
    conv_lhs => rw [to_base_5_fuel]
    simp only [hb, if_false]
    rw [to_base_5_fuel_congr b.natAbs (((b + 2).tdiv 5).natAbs + 1)
      ((b + 2).tdiv 5) (by omega) (by omega)]

theorem from_base_5_aux_succ (l : List Char) (p : Nat) :
    from_base_5_aux l (p + 1) = (from_base_5_aux l p).map (· * 5) := by
  induction l generalizing p with
  | nil => simp [from_base_5_aux]
  | cons c cs ih =>
    simp only [from_base_5_aux, ih (p + 1)]
    cases digitVal c with
    | none => simp
    | some d =>
      cases from_base_5_aux cs (p + 1) with
      | none => simp
      | some rest =>
        simp [Option.map, pow_succ]
        ring

theorem from_base_5_append (xs : List Char) (c : Char) :
    from_base_5 (xs ++ [c]) = (do
      let d ← digitVal c
      let w ← from_base_5 xs
      pure (w * 5 + d)) := by
  unfold from_base_5
  rw [List.reverse_append]
  simp only [List.reverse_cons, List.reverse_nil, List.nil_append,
    List.singleton_append, from_base_5_aux]
  rw [from_base_5_aux_succ]
  cases digitVal c with
  | none => simp
  | some d =>
    cases hw : from_base_5_aux xs.reverse 0 with
    | none => simp [hw]
    | some w =>
      simp [hw, Option.map]

theorem digitVal_snafuChar {d : Int} {c : Char} (h : snafuChar d = some c) :
    digitVal c = some d := by
  unfold snafuChar at h
  split_ifs at h with h1 h2 h3 h4 h5 <;>
    first
      | exact Option.noConfusion h
      | (injection h with h; subst h; subst_vars; decide)

/-- Round trip for every natural number input. -/
theorem to_from_base_5 (n : Nat) :
    (to_base_5 (n : Int)).bind from_base_5 = some (n : Int) := by
  induction n using Nat.strong_induction_on with
  | _ n ih =>
    by_cases h0 : n = 0
    · subst h0
      simp [to_base_5, to_base_5_fuel, from_base_5, from_base_5_aux]
    · rw [to_base_5_eq]
      have hne : (n : Int) ≠ 0 := by exact_mod_cast h0
      simp only [hne, if_false]
      have hn2 : ((n : Int) + 2) = ((n + 2 : Nat) : Int) := by push_cast; ring
      have h5 : (5 : Int) = ((5 : Nat) : Int) := rfl
      have hcast1 : ((n : Int) + 2).tmod 5 = (((n + 2) % 5 : Nat) : Int) := by
        rw [hn2, h5, ← Int.ofNat_tmod]
      have hcast2 : ((n : Int) + 2).tdiv 5 = (((n + 2) / 5 : Nat) : Int) := by
        rw [hn2, h5, ← Int.ofNat_tdiv]
      rw [hcast1, hcast2]
      set m : Nat := (n + 2) / 5 with hm
      have hmlt : m < n := by omega
      have ihm := ih m hmlt
      cases hb : to_base_5 (m : Int) with
      | none => rw [hb] at ihm; simp at ihm
      | some s =>
        rw [hb] at ihm
        simp only [Option.some_bind] at ihm
        have hr5 : (n + 2) % 5 < 5 := Nat.mod_lt _ (by norm_num)
        have hkey : 5 * m + (n + 2) % 5 = n + 2 := by
          rw [hm]; omega
        set r : Nat := (n + 2) % 5 with hrdef
        have hc : ∃ c, snafuChar ((r : Int) - 2) = some c := by
          interval_cases r <;> exact ⟨_, rfl⟩
        obtain ⟨c, hc⟩ := hc
        rw [hc]
        simp only [Option.some_bind, bind, Option.bind, hb]
        rw [from_base_5_append, digitVal_snafuChar hc]
        simp only [Option.some_bind, bind, Option.bind, ihm]
        congr 1
        have hmr : (5 : Int) * (m : Int) + (r : Int) = (n : Int) + 2 := by
          exact_mod_cast hkey
        omega

theorem from_base_5_aux_none {c : Char} :
    ∀ (l : List Char) (p : Nat), c ∈ l → digitVal c = none →
      from_base_5_aux l p = none := by
  intro l
  induction l with
  | nil => intro p h; exact absurd h (List.not_mem_nil c)
  | cons d ds ih =>
    intro p hmem hnone
    rcases List.mem_cons.1 hmem with h | h
    · subst h
      simp [from_base_5_aux, hnone]
    · simp only [from_base_5_aux]
      cases digitVal d with
      | none => rfl
      | some v => simp [ih (p + 1) h hnone]

theorem from_base_5_none {c : Char} {s : List Char} (hmem : c ∈ s)
    (hnone : digitVal c = none) : from_base_5 s = none :=
  from_base_5_aux_none s.reverse 0 (List.mem_reverse.2 hmem) hnone

end Day25

theorem mapOpt_none {α β : Type} {f : α → Option β} {x : α} :
    ∀ {xs : List α}, x ∈ xs → f x = none → mapOpt f xs = none := by
  intro xs
  induction xs with
  | nil => intro h; exact absurd h (List.not_mem_nil x)
  | cons y ys ih =>
    intro hmem hnone
    rcases List.mem_cons.1 hmem with h | h
    · subst h
      simp [mapOpt, hnone]
    · simp only [mapOpt]
      cases f y with
      | none => rfl
      | some v => simp [ih h hnone]

/-! ## Theorems about day 6 -/

namespace Day6

theorem compute_aux_some (N : Nat) :
    ∀ (cs : List Char) (i : Nat) (window : List Char) (k : Nat),
      window.length ≤ N →
      compute_aux N cs i window = some k →
      ∃ s w t, w.length = N ∧ w.Nodup ∧ window ++ cs = s ++ w ++ t := by
  intro cs
  induction cs with
  | nil => intro i window k _ h; exact absurd h (by simp [compute_aux])
  | cons c rest ih =>
    intro i window k hlen h
    simp only [compute_aux] at h
    set w1 := window ++ [c] with hw1
    set w2 := if N < w1.length then w1.drop 1 else w1 with hw2
    have hw2len : w2.length ≤ N := by
      rw [hw2]
      split
      · simp [hw1]
        omega
      · rename_i hle
        rw [hw1] at hle ⊢
        simp at hle ⊢
        omega
    have hdecomp : ∃ s, window ++ (c :: rest) = s ++ w2 ++ rest := by
      rw [hw2]
      split
      · exact ⟨w1.take 1, by
          rw [show window ++ (c :: rest) = w1 ++ rest by simp [hw1]]
          rw [List.take_append_drop]⟩
      · exact ⟨[], by simp [hw1]⟩
    split at h
    · rename_i hded
      obtain ⟨s, hs⟩ := hdecomp
      refine ⟨s, w2, rest, ?_, ?_, hs⟩
      · have hsub := List.dedup_sublist w2
        have hle := hsub.length_le
        omega
      · have hlen2 : w2.dedup.length = w2.length := by
          have hsub := List.dedup_sublist w2
          have hle := hsub.length_le
          omega
        have heq : w2.dedup = w2 := (List.dedup_sublist w2).eq_of_length hlen2
        rw [← heq]
        exact w2.nodup_dedup
    · obtain ⟨s', w, t, hwlen, hnodup, hdec⟩ := ih (i + 1) w2 k hw2len h
      obtain ⟨s, hs⟩ := hdecomp
      exact ⟨s ++ s', w, t, hwlen, hnodup, by
        rw [hs, List.append_assoc s w2 rest, hdec]
        simp [List.append_assoc]⟩

theorem compute_some (N : Nat) (input : List Char) (k : Nat)
    (h : compute N input = some k) :
    ∃ j, j + N ≤ input.length ∧ ((input.drop j).take N).Nodup := by
  obtain ⟨s, w, t, hwlen, hnodup, hdec⟩ :=
    compute_aux_some N input 0 [] k (by simp) h
  simp only [List.nil_append] at hdec
  refine ⟨s.length, ?_, ?_⟩
  · have hlen3 : input.length = (s ++ w ++ t).length := by rw [hdec]
    simp only [List.length_append] at hlen3
    omega
  · have hdrop : input.drop s.length = w ++ t := by
      rw [hdec, List.append_assoc, List.drop_left]
    rw [hdrop, List.take_left' hwlen]
    exact hnodup

end Day6

/-! ## Theorems about day 12 -/

namespace Day12

theorem pathTo_zero {g : Grid} {p : Nat × Nat} : PathTo g 0 p ↔ p = g.start :=
  Iff.rfl

theorem pathTo_succ {g : Grid} {n : Nat} {p : Nat × Nat} :
    PathTo g (n + 1) p ↔ ∃ q, PathTo g n q ∧ specEdge g q p :=
  Iff.rfl

theorem mem_allCells {g : Grid} {b : Nat × Nat} :
    b ∈ allCells g ↔ b.1 < g.size.1 ∧ b.2 < g.size.2 := by
  obtain ⟨x, y⟩ := b
  constructor
  · intro h
    simp only [allCells, List.mem_flatMap, List.mem_map, List.mem_range] at h
    obtain ⟨y2, hy, x2, hx, heq⟩ := h
    cases heq
    exact ⟨hx, hy⟩
  · rintro ⟨h1, h2⟩
    simp only [allCells, List.mem_flatMap, List.mem_map, List.mem_range]
    exact ⟨y, h2, x, h1, rfl⟩

theorem specEdge_bounds {g : Grid} {a b : Nat × Nat} (h : specEdge g a b) :
    b.1 < g.size.1 ∧ b.2 < g.size.2 := by
  simp only [specEdge, Bool.and_eq_true, decide_eq_true_eq] at h
  exact ⟨h.1.1.2, h.1.2⟩

theorem mem_reach_succ {g : Grid} {p : Nat × Nat} {n : Nat} :
    p ∈ reachN g (n + 1) ↔
      p ∈ reachN g n ∨ ∃ q ∈ reachN g n, specEdge g q p := by
  simp only [reachN, List.mem_dedup, List.mem_append, List.mem_flatMap,
    List.mem_filter]
  constructor
  · rintro (h | ⟨q, hq, _, he⟩)
    · exact Or.inl h
    · exact Or.inr ⟨q, hq, he⟩
  · rintro (h | ⟨q, hq, he⟩)
    · exact Or.inl h
    · exact Or.inr ⟨q, hq, mem_allCells.2 (specEdge_bounds he), he⟩

theorem pathTo_iff_mem_reach (g : Grid) :
    ∀ (n : Nat) (p : Nat × Nat),
      (∃ k, k ≤ n ∧ PathTo g k p) ↔ p ∈ reachN g n := by
  intro n
  induction n with
  | zero =>
    intro p
    constructor
    · rintro ⟨k, hk, hp⟩
      have hk0 : k = 0 := by omega
      subst hk0
      simp only [reachN, List.mem_singleton]
      exact pathTo_zero.1 hp
    · intro h
      simp only [reachN, List.mem_singleton] at h
      exact ⟨0, Nat.le_refl 0, pathTo_zero.2 h⟩
  | succ n ih =>
    intro p
    rw [mem_reach_succ]
    constructor
    · rintro ⟨k, hk, hp⟩
      rcases Nat.lt_or_ge k (n + 1) with hlt | hge
      · exact Or.inl ((ih p).1 ⟨k, by omega, hp⟩)
      · have hk1 : k = n + 1 := by omega
        subst hk1
        obtain ⟨q, hq, he⟩ := pathTo_succ.1 hp
        exact Or.inr ⟨q, (ih q).1 ⟨n, Nat.le_refl n, hq⟩, he⟩
    · rintro (h | ⟨q, hq, he⟩)
      · obtain ⟨k, hk, hp⟩ := (ih p).2 h
        exact ⟨k, by omega, hp⟩
      · obtain ⟨k, hk, hp⟩ := (ih q).2 hq
        exact ⟨k + 1, by omega, pathTo_succ.2 ⟨q, hp, he⟩⟩

theorem exampleGrid_new : Grid.new exampleInput = some exampleGrid := by decide

theorem exampleSolve : solve exampleInput = some 31 := by decide

theorem exampleReach31 : exampleGrid.endPos ∈ reachN exampleGrid 31 := by
  decide

theorem exampleNotReach30 : exampleGrid.endPos ∉ reachN exampleGrid 30 := by
  decide

end Day12

/-! ## Theorems about the day 24 wind tracker -/

namespace Day24

theorem and_one_shiftLeft_eq_zero_iff (a p : Nat) :
    (a &&& (1 <<< p) = 0) ↔ a.testBit p = false := by
  rw [Nat.one_shiftLeft]
  constructor
  · intro h
    have h2 := congrArg (fun x => x.testBit p) h
    simp only [Nat.testBit_and, Nat.testBit_two_pow_self, Bool.and_true,
      Nat.zero_testBit] at h2
    exact h2
  · intro h
    apply Nat.eq_of_testBit_eq
    intro i
    simp only [Nat.testBit_and, Nat.testBit_two_pow, Nat.zero_testBit]
    by_cases hip : p = i
    · subst hip; simp [h]
    · simp [hip]

theorem mod_128_cancel {x k : Nat} (hk : k ≤ 127) (hx : x < 2 ^ k) :
    x % 2 ^ 128 = x := by
  apply Nat.mod_eq_of_lt
  calc x < 2 ^ k := hx
    _ ≤ 2 ^ 128 := Nat.pow_le_pow_right (by norm_num) (by omega)

theorem int_sub_emod_iff {L q t p : Nat} (h0 : 0 < L) :
    (((q : Int) - t) % L = p) ↔ (q + (L - t % L)) % L = p := by
  set m : Nat := t % L with hm
  have hmL : m < L := Nat.mod_lt _ h0
  set s : Nat := L - m with hs
  have hms : m + s = L := by omega
  have htm : (t : Int) % (L : Int) = (m : Int) % (L : Int) := by
    rw [← Int.ofNat_emod t L, ← Int.ofNat_emod m L, Nat.mod_eq_of_lt hmL, hm]
  have e1 : ((q : Int) - t) % L = ((q : Int) - m) % L := by
    rw [Int.sub_emod, htm, ← Int.sub_emod]
  have e2 : ((q + s : Nat) : Int) % L = ((q : Int) - m) % L := by
    have h2 : ((q + s : Nat) : Int) = ((q : Int) - m) + L := by push_cast; omega
    rw [h2]
    simp [Int.add_emod]
  constructor
  · intro h
    have h3 : ((q + s : Nat) : Int) % L = (p : Int) := by
      rw [e2, ← e1]
      exact h
    exact_mod_cast h3
  · intro h
    rw [e1, ← e2]
    exact_mod_cast h

theorem shifted_lt {x a b L : Nat} (hab : a + b = L) (hx : x ≤ 2 ^ a - 1) :
    x <<< b < 2 ^ L := by
  rw [Nat.shiftLeft_eq]
  have h1 : 2 ^ a ≥ 1 := Nat.one_le_two_pow
  calc x * 2 ^ b ≤ (2 ^ a - 1) * 2 ^ b := Nat.mul_le_mul_right _ hx
    _ < 2 ^ a * 2 ^ b := by
        have : 2 ^ b ≥ 1 := Nat.one_le_two_pow
        have h2 : 2 ^ a - 1 < 2 ^ a := by omega
        exact Nat.mul_lt_mul_of_lt_of_le h2 (le_refl _) this
    _ = 2 ^ L := by rw [← pow_add, hab]

theorem is_clear_eq_false_iff (w : WindTracker) (t p : Nat)
    (h0 : 0 < w.length) (h128 : w.length < 128)
    (hl : w.l_bits < 2 ^ w.length) (hr : w.r_bits < 2 ^ w.length)
    (hp : p < w.length) :
    (w.is_clear t p = false) ↔
      ((∃ q, q < w.length ∧ w.l_bits.testBit q = true ∧
          (q + t) % w.length = p) ∨
       (∃ q, q < w.length ∧ w.r_bits.testBit q = true ∧
          ((q : Int) - (t : Int)) % (w.length : Int) = (p : Int))) := by
  obtain ⟨l, r, L⟩ := w
  simp only at h0 h128 hl hr hp
  have ht' : t % L < L := Nat.mod_lt _ h0
  simp only [WindTracker.is_clear]
  rw [beq_eq_false_iff_ne, Ne, and_one_shiftLeft_eq_zero_iff, Bool.not_eq_false]
  simp only [Nat.one_shiftLeft]
  have hA : (l &&& (2 ^ (L - t % L) - 1)) <<< (t % L) % 2 ^ 128
      = (l &&& (2 ^ (L - t % L) - 1)) <<< (t % L) :=
    @mod_128_cancel _ L (by omega)
      (@shifted_lt _ (L - t % L) (t % L) L (by omega) Nat.and_le_right)
  have hD : (r &&& (2 ^ (t % L) - 1)) <<< (L - t % L) % 2 ^ 128
      = (r &&& (2 ^ (t % L) - 1)) <<< (L - t % L) :=
    @mod_128_cancel _ L (by omega)
      (@shifted_lt _ (t % L) (L - t % L) L (by omega) Nat.and_le_right)
  rw [hA, hD]
  simp only [Nat.testBit_or, Nat.testBit_and, Nat.testBit_shiftLeft,
    Nat.testBit_shiftRight, Nat.testBit_two_pow_sub_one, Bool.or_eq_true,
    Bool.and_eq_true, decide_eq_true_eq, ge_iff_le]
  simp only [int_sub_emod_iff h0]
  constructor
  · rintro (((⟨h1, h2, h3⟩ | ⟨h2, h1⟩) | ⟨h2, h1⟩) | ⟨h1, h2, h3⟩)
    · refine Or.inl ⟨p - t % L, by omega, h2, ?_⟩
      rw [← Nat.add_mod_mod]
      rw [show p - t % L + t % L = p by omega]
      exact Nat.mod_eq_of_lt hp
    · refine Or.inl ⟨L - t % L + p, by omega, h2, ?_⟩
      rw [← Nat.add_mod_mod]
      rw [show L - t % L + p + t % L = L + p by omega, Nat.add_mod_left]
      exact Nat.mod_eq_of_lt hp
    · refine Or.inr ⟨t % L + p, by omega, h2, ?_⟩
      rw [show t % L + p + (L - t % L) = L + p by omega, Nat.add_mod_left]
      exact Nat.mod_eq_of_lt hp
    · refine Or.inr ⟨p - (L - t % L), by omega, h2, ?_⟩
      rw [show p - (L - t % L) + (L - t % L) = p by omega]
      exact Nat.mod_eq_of_lt hp
  · rintro (⟨q, hq, hbit, hmod⟩ | ⟨q, hq, hbit, hmod⟩)
    · rw [← Nat.add_mod_mod] at hmod
      rcases Nat.lt_or_ge (q + t % L) L with hc | hc
      · rw [Nat.mod_eq_of_lt hc] at hmod
        refine Or.inl (Or.inl (Or.inl ⟨by omega, ?_, by omega⟩))
        rw [show p - t % L = q by omega]
        exact hbit
      · rw [Nat.mod_eq_sub_mod hc, Nat.mod_eq_of_lt (by omega)] at hmod
        refine Or.inl (Or.inl (Or.inr ⟨?_, by omega⟩))
        rw [show L - t % L + p = q by omega]
        exact hbit
    · rcases Nat.lt_or_ge (q + (L - t % L)) L with hc | hc
      · rw [Nat.mod_eq_of_lt hc] at hmod
        refine Or.inr ⟨by omega, ?_, by omega⟩
        rw [show p - (L - t % L) = q by omega]
        exact hbit
      · rw [Nat.mod_eq_sub_mod hc, Nat.mod_eq_of_lt (by omega)] at hmod
        refine Or.inl (Or.inr ⟨?_, by omega⟩)
        rw [show t % L + p = q by omega]
        exact hbit

theorem foldl_set_rightward_spec (ps : List Nat) :
    ∀ w : WindTracker,
      (ps.foldl WindTracker.set_rightward w).r_bits = w.r_bits ∧
      (ps.foldl WindTracker.set_rightward w).length = w.length ∧
      ∀ q, ((ps.foldl WindTracker.set_rightward w).l_bits.testBit q = true ↔
        (w.l_bits.testBit q = true ∨ q ∈ ps)) := by
  induction ps with
  | nil => intro w; simp
  | cons p0 ps ih =>
    intro w
    obtain ⟨ih1, ih2, ih3⟩ := ih (w.set_rightward p0)
    refine ⟨ih1, ih2, ?_⟩
    intro q
    rw [List.foldl_cons, ih3 q]
    simp only [WindTracker.set_rightward, Nat.testBit_or, Nat.one_shiftLeft,
      Nat.testBit_two_pow, Bool.or_eq_true, decide_eq_true_eq, List.mem_cons]
    constructor
    · rintro ((h | h) | h)
      · exact Or.inl h
      · exact Or.inr (Or.inl h.symm)
      · exact Or.inr (Or.inr h)
    · rintro (h | h | h)
      · exact Or.inl (Or.inl h)
      · exact Or.inl (Or.inr h.symm)
      · exact Or.inr h

theorem foldl_set_leftward_spec (ps : List Nat) :
    ∀ w : WindTracker,
      (ps.foldl WindTracker.set_leftward w).l_bits = w.l_bits ∧
      (ps.foldl WindTracker.set_leftward w).length = w.length ∧
      ∀ q, ((ps.foldl WindTracker.set_leftward w).r_bits.testBit q = true ↔
        (w.r_bits.testBit q = true ∨ q ∈ ps)) := by
  induction ps with
  | nil => intro w; simp
  | cons p0 ps ih =>
    intro w
    obtain ⟨ih1, ih2, ih3⟩ := ih (w.set_leftward p0)
    refine ⟨ih1, ih2, ?_⟩
    intro q
    rw [List.foldl_cons, ih3 q]
    simp only [WindTracker.set_leftward, Nat.testBit_or, Nat.one_shiftLeft,
      Nat.testBit_two_pow, Bool.or_eq_true, decide_eq_true_eq, List.mem_cons]
    constructor
    · rintro ((h | h) | h)
      · exact Or.inl h
      · exact Or.inr (Or.inl h.symm)
      · exact Or.inr (Or.inr h)
    · rintro (h | h | h)
      · exact Or.inl (Or.inl h)
      · exact Or.inl (Or.inr h.symm)
      · exact Or.inr h

theorem foldl_set_rightward_lt (ps : List Nat) :
    ∀ w : WindTracker, w.l_bits < 2 ^ w.length →
      (∀ q ∈ ps, q < w.length) →
      (ps.foldl WindTracker.set_rightward w).l_bits
        < 2 ^ (ps.foldl WindTracker.set_rightward w).length := by
  induction ps with
  | nil => intro w h _; exact h
  | cons p0 ps ih =>
    intro w h hps
    rw [List.foldl_cons]
    refine ih (w.set_rightward p0) ?_ ?_
    · simp only [WindTracker.set_rightward]
      refine Nat.or_lt_two_pow h ?_
      rw [Nat.one_shiftLeft]
      exact Nat.pow_lt_pow_right (by norm_num) (hps p0 (by simp))
    · intro q hq
      exact hps q (by simp [hq])

theorem foldl_set_leftward_lt (ps : List Nat) :
    ∀ w : WindTracker, w.r_bits < 2 ^ w.length →
      (∀ q ∈ ps, q < w.length) →
      (ps.foldl WindTracker.set_leftward w).r_bits
        < 2 ^ (ps.foldl WindTracker.set_leftward w).length := by
  induction ps with
  | nil => intro w h _; exact h
  | cons p0 ps ih =>
    intro w h hps
    rw [List.foldl_cons]
    refine ih (w.set_leftward p0) ?_ ?_
    · simp only [WindTracker.set_leftward]
      refine Nat.or_lt_two_pow h ?_
      rw [Nat.one_shiftLeft]
      exact Nat.pow_lt_pow_right (by norm_num) (hps p0 (by simp))
    · intro q hq
      exact hps q (by simp [hq])

end Day24

/-! ## Claim theorems for C9 and C4 -/

/-- C9: Day 25 numeral round trip: for every integer n >= 0,
from_base_5(to_base_5(n)) = n; at the edge, to_base_5(0) is the empty string
and from_base_5 of the empty string is 0. -/
theorem C9_day25_numeral_roundtrip :
    (∀ n : Nat, (Day25.to_base_5 (n : Int)).bind Day25.from_base_5
      = some (n : Int))
    ∧ Day25.to_base_5 0 = some []
    ∧ Day25.from_base_5 [] = some 0 :=
  ⟨Day25.to_from_base_5, rfl, rfl⟩

/-- C4 counterexample: the claim says day 25's solve aborts on any non-empty
input line containing a character outside '=', '-', '0', '1', '2'.  The
input " 12" is a single non-empty line containing the space character, which
is outside that set, yet `solve` trims the line and returns the answer "12"
rather than aborting. -/
theorem C4_counterexample :
    RustStr.lines [' ', '1', '2'] = [[' ', '1', '2']]
    ∧ [' ', '1', '2'] ≠ []
    ∧ ' ' ∈ [' ', '1', '2']
    ∧ Day25.digitVal ' ' = none
    ∧ Day25.solve [' ', '1', '2'] = some ['1', '2'] := by
  refine ⟨rfl, by decide, by decide, rfl, rfl⟩

/-- C4 (amended): malformed input aborts with no partial result, where for
day 25 "malformed line" means a line that is still non-empty after trimming
whitespace and contains a character outside '=', '-', '0', '1', '2' (the
solver trims each line before converting it); day 6's compute::<N> aborts
when the input contains no window of N pairwise-distinct characters. -/
theorem C4_malformed_input_aborts :
    (∀ (input l : List Char), l ∈ RustStr.lines input →
      RustStr.trim l ≠ [] →
      (∃ c ∈ RustStr.trim l, Day25.digitVal c = none) →
      Day25.solve input = none)
    ∧ (∀ (N : Nat) (input : List Char),
      (∀ j, j + N ≤ input.length → ¬((input.drop j).take N).Nodup) →
      Day6.compute N input = none) := by
  constructor
  · intro input l hl hne hc
    obtain ⟨c, hcmem, hcnone⟩ := hc
    have hfb : Day25.from_base_5 (RustStr.trim l) = none :=
      Day25.from_base_5_none hcmem hcnone
    have hmem : RustStr.trim l ∈
        ((RustStr.lines input).map RustStr.trim).filter (fun l => !l.isEmpty) := by
      refine List.mem_filter.2 ⟨List.mem_map_of_mem _ hl, ?_⟩
      simp [List.isEmpty_iff, hne]
    have hmap := mapOpt_none hmem hfb
    simp only [Day25.solve]
    rw [hmap]
    rfl
  · intro N input h
    cases hk : Day6.compute N input with
    | none => rfl
    | some k =>
      obtain ⟨j, hj, hnodup⟩ := Day6.compute_some N input k hk
      exact absurd hnodup (h j hj)

/-- Witness for C4: instantiating the amended theorem at the malformed line
" 1x" for day 25 and at the marker-free input "aaaaa" for day 6. -/
theorem C4_malformed_witness :
    Day25.solve [' ', '1', 'x'] = none
    ∧ Day6.compute 4 ['a', 'a', 'a', 'a', 'a'] = none := by
  constructor
  · exact C4_malformed_input_aborts.1 [' ', '1', 'x'] [' ', '1', 'x']
      (by decide) (by decide) ⟨'x', by decide, rfl⟩
  · refine C4_malformed_input_aborts.2 4 ['a', 'a', 'a', 'a', 'a'] ?_
    intro j hj
    have hj5 : j ≤ 1 := by simp at hj; omega
    interval_cases j <;> decide

/-- C3: for the fixed 5-line example grid, day 12's solve returns exactly 31,
which is the minimum length of a forward path from the start cell S to the
end cell E moving only between 4-adjacent cells whose elevation rises by at
most one per forward step. -/
theorem C3_day12_example_min_path :
    Day12.solve Day12.exampleInput = some 31
    ∧ ∃ g, Day12.Grid.new Day12.exampleInput = some g
        ∧ Day12.PathTo g 31 g.endPos
        ∧ ∀ k, Day12.PathTo g k g.endPos → 31 ≤ k := by
  refine ⟨Day12.exampleSolve, Day12.exampleGrid, Day12.exampleGrid_new, ?_, ?_⟩
  · obtain ⟨k, hk, hp⟩ :=
      (Day12.pathTo_iff_mem_reach _ 31 _).2 Day12.exampleReach31
    have hk31 : k = 31 := by
      by_contra hne
      have hk30 : k ≤ 30 := by omega
      exact Day12.exampleNotReach30
        ((Day12.pathTo_iff_mem_reach _ 30 _).1 ⟨k, hk30, hp⟩)
    subst hk31
    exact hp
  · intro k hp
    by_contra hlt
    push_neg at hlt
    exact Day12.exampleNotReach30
      ((Day12.pathTo_iff_mem_reach _ 30 _).1 ⟨k, by omega, hp⟩)

/-- C2: Day 24 bit-packed wind tracker equals a naive cyclic wind simulation:
for every WindTracker of length L with 0 < L < 128 whose winds were marked by
set_rightward at the positions `rights` and by set_leftward at the positions
`lefts` (all below L), every time t and every position p < L, is_clear(t, p)
is false exactly when some q in `rights` satisfies (q + t) mod L = p, or some
q in `lefts` satisfies (q - t) mod L = p. -/
theorem C2_windtracker_equals_cyclic_wind (L : Nat) (rights lefts : List Nat) (t p : Nat)
    (h0 : 0 < L) (h128 : L < 128)
    (hrs : ∀ q ∈ rights, q < L) (hls : ∀ q ∈ lefts, q < L) (hp : p < L) :
    ((Day24.buildTracker L rights lefts).is_clear t p = false ↔
      (∃ q ∈ rights, (q + t) % L = p) ∨
      (∃ q ∈ lefts, ((q : Int) - (t : Int)) % (L : Int) = (p : Int))) := by
  obtain ⟨hr1, hlen1, hbit1⟩ :=
    Day24.foldl_set_rightward_spec rights (Day24.WindTracker.new L)
  obtain ⟨hl2, hlen2, hbit2⟩ :=
    Day24.foldl_set_leftward_spec lefts
      (rights.foldl Day24.WindTracker.set_rightward (Day24.WindTracker.new L))
  set W1 := rights.foldl Day24.WindTracker.set_rightward
    (Day24.WindTracker.new L) with hW1
  set W := lefts.foldl Day24.WindTracker.set_leftward W1 with hW
  have hlen : W.length = L := by
    rw [hlen2, hlen1]
    rfl
  have hlbits : ∀ q, (W.l_bits.testBit q = true ↔ q ∈ rights) := by
    intro q
    rw [hl2, hbit1 q]
    simp [Day24.WindTracker.new]
  have hrbits : ∀ q, (W.r_bits.testBit q = true ↔ q ∈ lefts) := by
    intro q
    rw [hbit2 q, hr1]
    simp [Day24.WindTracker.new]
  have hlb : W.l_bits < 2 ^ W.length := by
    rw [hl2, hlen2]
    exact Day24.foldl_set_rightward_lt rights (Day24.WindTracker.new L)
      (by simp [Day24.WindTracker.new]) (by simpa [Day24.WindTracker.new] using hrs)
  have hrb : W.r_bits < 2 ^ W.length := by
    exact Day24.foldl_set_leftward_lt lefts W1
      (by rw [hr1]; simp [Day24.WindTracker.new]) (by simpa [hlen1, Day24.WindTracker.new] using hls)
  have hiff := Day24.is_clear_eq_false_iff W t p (by omega) (by omega) hlb hrb (by omega)
  rw [hlen] at hiff
  rw [show Day24.buildTracker L rights lefts = W from rfl]
  rw [hiff]
  constructor
  · rintro (⟨q, hq, hbit, hmod⟩ | ⟨q, hq, hbit, hmod⟩)
    · exact Or.inl ⟨q, (hlbits q).1 hbit, hmod⟩
    · exact Or.inr ⟨q, (hrbits q).1 hbit, hmod⟩
  · rintro (⟨q, hmem, hmod⟩ | ⟨q, hmem, hmod⟩)
    · exact Or.inl ⟨q, hrs q hmem, (hlbits q).2 hmem, hmod⟩
    · exact Or.inr ⟨q, hls q hmem, (hrbits q).2 hmem, hmod⟩

/-- Witness for C2: a length-5 tracker with a rightward wind at 1 and a
leftward wind at 4; at time 3, position 4 is hit by the rightward wind. -/
theorem C2_windtracker_witness :
    (Day24.buildTracker 5 [1] [4]).is_clear 3 4 = false :=
  (C2_windtracker_equals_cyclic_wind 5 [1] [4] 3 4 (by norm_num) (by norm_num)
    (by decide) (by decide) (by norm_num)).2 (Or.inl ⟨1, by decide, by decide⟩)

/-! ## Claim theorem for C1 -/

/-- C1: day 24 shortest-path optimality.  For every blizzard board (in
particular every well-formed one), every start and goal position and every
starting time: any value `Day24.fastest_path` returns is at least the starting
time and is the least time `t` at which a state with the goal position is
occupied along some walk from the start that at each step waits or moves
one cell and is valid in the sense of `next_states`'s `valid_state` (in
bounds and wind-free at the arrival time, the start and end positions
always being allowed); and whenever the goal is reachable at all, some
fuel bound makes `Day24.fastest_path` return (the Rust loop terminates with a
result rather than reaching its `panic!()`). -/
theorem C1_day24_fastest_path_optimal (b : Day24.Board) (pos endp : Int × Int)
    (time : Nat) :
    (∀ fuel t, Day24.fastest_path b pos endp time fuel = some t →
      time ≤ t ∧
      IsLeast {u | ∃ s, Day24.Reach b (Day24.State.mk time pos) s ∧ s.pos = endp ∧
        s.time = u} t) ∧
    ((∃ g, Day24.Reach b (Day24.State.mk time pos) g ∧ g.pos = endp) →
      ∃ fuel t, Day24.fastest_path b pos endp time fuel = some t) := by
  have hInv0 : Day24.Inv b endp (Day24.State.mk time pos)
      [Day24.wrap_cost endp (Day24.State.mk time pos)] [] := by
    refine ⟨?_, ?_, ?_, Or.inr (List.mem_singleton_self _), ?_⟩
    · intro e he
      rw [List.mem_singleton] at he
      subst he
      exact ⟨⟨0, rfl⟩, rfl⟩
    · intro v hv
      simp at hv
    · intro v hv
      simp at hv
    · intro v hv
      simp at hv
  constructor
  · intro fuel t h
    unfold Day24.fastest_path at h
    obtain ⟨⟨s, hs, hspos, hstime⟩, hmin⟩ := Day24.astar_sound fuel _ _ hInv0 t h
    refine ⟨?_, ⟨s, hs, hspos, hstime⟩, ?_⟩
    · obtain ⟨k, hk⟩ := hs
      have h2 := Day24.reachin_time hk
      dsimp only at h2
      omega
    · intro u hu
      obtain ⟨g, hg, hgpos, hgtime⟩ := hu
      exact hgtime ▸ hmin g hg hgpos
  · rintro ⟨g, ⟨kg, hkg⟩, hgpos⟩
    obtain ⟨t, ht⟩ := Day24.astar_complete hkg hgpos
      (1 + 6 * ((Day24.stateFinset b (Day24.State.mk time pos).pos g.time)
        \ (([] : List Day24.State)).toFinset).card)
      [Day24.wrap_cost endp (Day24.State.mk time pos)] [] hInv0 (by simp)
    exact ⟨_, t, ht⟩

theorem C1_day24_fastest_path_optimal_witness :
    (0 : Nat) ≤ 0 ∧ IsLeast {u | ∃ s,
      Day24.Reach (Day24.Board.mk [] [] (0, 0) (0, 0)) (Day24.State.mk 0 (0, 0)) s ∧
      s.pos = ((0 : Int), (0 : Int)) ∧ s.time = u} 0 :=
  (C1_day24_fastest_path_optimal (Day24.Board.mk [] [] (0, 0) (0, 0))
    (0, 0) (0, 0) 0).1 1 0 rfl



namespace Day20

theorem walk_eq_iterate {n : Nat} (a : List20 n) (dir : Direction) :
    ∀ (k : Nat) (i : Fin n), walk a dir k i = (step a dir)^[k] i := by
  intro k
  induction k with
  | zero => intro i; rfl
  | succ k ih =>
    intro i
    rw [walk, ih, ← Function.iterate_succ_apply]

end Day20


namespace Day20

variable {n : Nat}

theorem walk_fixed {a : List20 n} {i : Fin n} (h : a.next i = i) :
    ∀ k, walk a .Forwards k i = i := by
  intro k
  induction k with
  | zero => rfl
  | succ k ih => rw [walk, step, h]; exact ih

theorem next_node_ne {a : List20 n} (hn : 2 ≤ n) (hwf : WF a) (node : Fin n) :
    a.next node ≠ node := by
  obtain ⟨h1, h2, h3⟩ := hwf
  intro hfix
  have h2n : (0 : Nat) < n := by omega
  have hj : ∃ j : Fin n, j ≠ node := by
    by_cases h : node = (⟨0, by omega⟩ : Fin n)
    · exact ⟨⟨1, by omega⟩, by rw [h]; intro hc; exact absurd (Fin.val_eq_of_eq hc) (by norm_num)⟩
    · exact ⟨⟨0, by omega⟩, fun hc => h (hc ▸ rfl)⟩
  obtain ⟨j, hj⟩ := hj
  obtain ⟨k, hk⟩ := h3 node j
  rw [walk_fixed hfix] at hk
  exact hj hk.symm

theorem prev_node_ne {a : List20 n} (hn : 2 ≤ n) (hwf : WF a) (node : Fin n) :
    a.prev node ≠ node := by
  intro hfix
  have h2 := hwf.2.1
  have : a.next node = node := by
    conv_lhs => rw [← hfix]
    rw [h2]
  exact next_node_ne hn hwf node this

theorem shift_congr (a : List20 n) (node : Fin n) {k1 k2 : Int}
    (h : k1 % ((n - 1 : Nat) : Int) = k2 % ((n - 1 : Nat) : Int)) :
    shift a node k1 = shift a node k2 := by
  simp only [shift, shiftTarget, shiftDistDir]
  rw [h]

end Day20

namespace Day20

theorem shift_zero_eq {n : Nat} {a : List20 n} (hn : 2 ≤ n) (hwf : WF a)
    (node : Fin n) : shift a node 0 = a := by
  have hN := next_node_ne hn hwf node
  have hP := prev_node_ne hn hwf node
  obtain ⟨h1, h2, h3⟩ := hwf
  have hd : shiftDistDir n 0 = (0, Direction.Forwards) := by
    simp [shiftDistDir, Int.zero_emod]
  have hW : shiftTarget a node 0 = a.prev node := by
    simp [shiftTarget, hd, walk]
  simp only [shift, hW]
  have hM : (unlinked a node).next (a.prev node) = a.next node := by
    simp [unlinked]
  rw [hM]
  refine List20.ext rfl ?_ ?_
  · funext i
    show Function.update
      (Function.update (unlinked a node).prev (a.next node) node) node
      (a.prev node) i = a.prev i
    rcases eq_or_ne i node with rfl | hinode
    · rw [Function.update_same]
    · rw [Function.update_noteq hinode]
      rcases eq_or_ne i (a.next node) with rfl | hiN
      · rw [Function.update_same]
        exact (h1 node).symm
      · rw [Function.update_noteq hiN]
        simp only [unlinked]
        rw [Function.update_noteq hiN]
  · funext i
    show Function.update
      (Function.update (unlinked a node).next (a.prev node) node) node
      (a.next node) i = a.next i
    rcases eq_or_ne i node with rfl | hinode
    · rw [Function.update_same]
    · rw [Function.update_noteq hinode]
      rcases eq_or_ne i (a.prev node) with rfl | hiP
      · rw [Function.update_same]
        exact (h2 node).symm
      · rw [Function.update_noteq hiP]
        simp only [unlinked]
        rw [Function.update_noteq hiP]

end Day20

namespace Day20

theorem next_injective {n : Nat} {a : List20 n}
    (h1 : ∀ i, a.prev (a.next i) = i) : Function.Injective a.next := by
  intro i j h
  rw [← h1 i, h, h1 j]

theorem iterate_reach_transfer {α : Type} (f g : α → α) (t node : α)
    (hS : ∀ y, y ≠ node → f y ≠ node)
    (hag : ∀ y, y ≠ t → y ≠ node → g y = f y) :
    ∀ (k : Nat) (x : α), x ≠ node → f^[k] x = t → ∃ m, g^[m] x = t := by
  intro k
  induction k with
  | zero => intro x _ h; exact ⟨0, h⟩
  | succ k ih =>
    intro x hx h
    rcases eq_or_ne x t with rfl | hxt
    · exact ⟨0, rfl⟩
    · rw [Function.iterate_succ_apply] at h
      obtain ⟨m, hm⟩ := ih (f x) (hS x hx) h
      refine ⟨m + 1, ?_⟩
      rw [Function.iterate_succ_apply, hag x hxt hx]
      exact hm

theorem orbit_all {α : Type} [Fintype α] [DecidableEq α] {f : α → α}
    (hinj : Function.Injective f) (x0 : α)
    (hback : ∀ x, ∃ m, f^[m] x = x0) : ∀ j, ∃ k, f^[k] x0 = j := by
  classical
  set O : Finset α := Finset.univ.filter (fun j => ∃ k, f^[k] x0 = j) with hO
  have hmemO : ∀ j, j ∈ O ↔ ∃ k, f^[k] x0 = j := by
    intro j
    rw [hO]
    simp
  have hx0 : x0 ∈ O := (hmemO x0).2 ⟨0, rfl⟩
  have hclosed : ∀ j, j ∈ O → f j ∈ O := by
    intro j hj
    rw [hmemO] at hj ⊢
    obtain ⟨k, hk⟩ := hj
    exact ⟨k + 1, by rw [Function.iterate_succ_apply', hk]⟩
  have himg : O.image f = O := by
    apply Finset.eq_of_subset_of_card_le
    · intro y hy
      obtain ⟨x, hx, hfx⟩ := Finset.mem_image.1 hy
      rw [← hfx]
      exact hclosed x hx
    · rw [Finset.card_image_of_injective _ hinj]
  have hpre : ∀ x, f x ∈ O → x ∈ O := by
    intro x hfx
    rw [← himg] at hfx
    obtain ⟨y, hy, hfy⟩ := Finset.mem_image.1 hfx
    rwa [hinj hfy] at hy
  have hiterpre : ∀ (m : Nat) (x : α), f^[m] x ∈ O → x ∈ O := by
    intro m
    induction m with
    | zero => intro x h; exact h
    | succ m ih =>
      intro x h
      rw [Function.iterate_succ_apply] at h
      exact hpre x (ih (f x) h)
  intro j
  obtain ⟨m, hm⟩ := hback j
  exact (hmemO j).1 (hiterpre m j (by rw [hm]; exact hx0))

theorem reach_unlinked {n : Nat} {a : List20 n} {node : Fin n}
    (h1 : ∀ i, a.prev (a.next i) = i) (h2 : ∀ i, a.next (a.prev i) = i)
    (hN : a.next node ≠ node) :
    ∀ (k : Nat) (i j : Fin n), i ≠ node → j ≠ node → (a.next)^[k] i = j →
      ∃ m, ((unlinked a node).next)^[m] i = j := by
  have hnext1 : ∀ i : Fin n, (unlinked a node).next i
      = if i = a.prev node then a.next node else a.next i := by
    intro i
    simp [unlinked, Function.update_apply]
  intro k
  induction k using Nat.strong_induction_on with
  | _ k ih =>
    intro i j hi hj hiter
    cases k with
    | zero => exact ⟨0, hiter⟩
    | succ k1 =>
      rw [Function.iterate_succ_apply] at hiter
      rcases eq_or_ne (a.next i) node with hs | hs
      · have hiP : i = a.prev node := by rw [← hs, h1]
        cases k1 with
        | zero =>
          simp only [Function.iterate_zero_apply] at hiter
          rw [hs] at hiter
          exact absurd hiter.symm hj
        | succ k2 =>
          rw [hs, Function.iterate_succ_apply] at hiter
          obtain ⟨m, hm⟩ := ih k2 (by omega) (a.next node) j hN hj hiter
          refine ⟨m + 1, ?_⟩
          rw [Function.iterate_succ_apply, hnext1 i, if_pos hiP]
          exact hm
      · obtain ⟨m, hm⟩ := ih k1 (by omega) (a.next i) j hs hj hiter
        refine ⟨m + 1, ?_⟩
        have hiP : i ≠ a.prev node := by
          intro hc
          rw [hc, h2] at hs
          exact hs rfl
        rw [Function.iterate_succ_apply, hnext1 i, if_neg hiP]
        exact hm

end Day20

namespace Day20

theorem WF_shift {n : Nat} {a : List20 n} (hn : 2 ≤ n) (hwf : WF a)
    (node : Fin n) (off : Int) : WF (shift a node off) := by
  have hNnode := next_node_ne hn hwf node
  have hPnode := prev_node_ne hn hwf node
  obtain ⟨h1, h2, h3⟩ := hwf
  set P := a.prev node with hP
  set N := a.next node with hN
  set a1 := unlinked a node with ha1
  have hnext1 : ∀ i, a1.next i = if i = P then N else a.next i := by
    intro i
    simp [ha1, unlinked, Function.update_apply, hP, hN]
  have hprev1 : ∀ i, a1.prev i = if i = N then P else a.prev i := by
    intro i
    simp [ha1, unlinked, Function.update_apply, hP, hN]
  have g1 : ∀ i, i ≠ node → a1.next i ≠ node := by
    intro i hi
    rw [hnext1]
    split
    · exact hNnode
    · rename_i hiP
      intro hc
      exact hiP (by rw [hP, ← hc, h1])
  have g1' : ∀ i, i ≠ node → a1.prev i ≠ node := by
    intro i hi
    rw [hprev1]
    split
    · exact hPnode
    · rename_i hiN
      intro hc
      exact hiN (by rw [hN, ← hc, h2])
  have g2a : ∀ i, i ≠ node → a1.prev (a1.next i) = i := by
    intro i hi
    rw [hnext1]
    split
    · rename_i hiP
      rw [hprev1, if_pos rfl, hiP]
    · rename_i hiP
      rw [hprev1]
      split
      · rename_i hc
        exact absurd (next_injective h1 (by rw [hc, hN])) hi
      · exact h1 i
  have g2b : ∀ i, i ≠ node → a1.next (a1.prev i) = i := by
    intro i hi
    rw [hprev1]
    split
    · rename_i hiN
      rw [hnext1, if_pos rfl, hiN]
    · rename_i hiN
      rw [hnext1]
      split
      · rename_i hc
        have hcontra : i = node := by
          rw [← h2 i, hc, hP, h2]
        exact absurd hcontra hi
      · exact h2 i
  have hwalkne : ∀ (dir : Direction) (k : Nat) (i : Fin n), i ≠ node →
      walk a1 dir k i ≠ node := by
    intro dir k
    induction k with
    | zero => intro i hi; exact hi
    | succ k ih =>
      intro i hi
      rw [walk]
      apply ih
      cases dir
      · exact g1 i hi
      · exact g1' i hi
  set W := shiftTarget a node off with hWdef
  have hWne : W ≠ node := by
    rw [hWdef]
    have hWT : shiftTarget a node off
        = walk a1 (shiftDistDir n off).2 (shiftDistDir n off).1 P := by
      simp [shiftTarget, ha1, hP]
    rw [hWT]
    exact hwalkne _ _ _ hPnode
  set M := a1.next W with hMdef
  have hMne : M ≠ node := by
    rw [hMdef]
    exact g1 W hWne
  set next2 := Function.update (Function.update a1.next W node) node M
    with hnext2def
  set prev2 := Function.update (Function.update a1.prev M node) node W
    with hprev2def
  have hnext2 : ∀ i, next2 i
      = if i = node then M else if i = W then node else a1.next i := by
    intro i
    rw [hnext2def]
    rcases eq_or_ne i node with rfl | hi
    · rw [Function.update_same, if_pos rfl]
    · rw [Function.update_noteq hi, if_neg hi, Function.update_apply]
  have hprev2 : ∀ i, prev2 i
      = if i = node then W else if i = M then node else a1.prev i := by
    intro i
    rw [hprev2def]
    rcases eq_or_ne i node with rfl | hi
    · rw [Function.update_same, if_pos rfl]
    · rw [Function.update_noteq hi, if_neg hi, Function.update_apply]
  have hshift_eq : shift a node off
      = { values := a.values, prev := prev2, next := next2 } := rfl
  have hinv1 : ∀ i, prev2 (next2 i) = i := by
    intro i
    rcases eq_or_ne i node with rfl | hinode
    · rw [hnext2, if_pos rfl, hprev2, if_neg hMne, if_pos rfl]
    · rcases eq_or_ne i W with rfl | hiW
      · rw [hnext2, if_neg hinode, if_pos rfl, hprev2, if_pos rfl]
      · rw [hnext2, if_neg hinode, if_neg hiW]
        have hj := g1 i hinode
        have hjM : a1.next i ≠ M := by
          intro hc
          apply hiW
          rw [← g2a i hinode, hc, hMdef, g2a W hWne]
        rw [hprev2, if_neg hj, if_neg hjM]
        exact g2a i hinode
  have hinv2 : ∀ i, next2 (prev2 i) = i := by
    intro i
    rcases eq_or_ne i node with rfl | hinode
    · rw [hprev2, if_pos rfl, hnext2, if_neg hWne, if_pos rfl]
    · rcases eq_or_ne i M with rfl | hiM
      · rw [hprev2, if_neg hinode, if_pos rfl, hnext2, if_pos rfl]
      · rw [hprev2, if_neg hinode, if_neg hiM]
        have hj := g1' i hinode
        have hjW : a1.prev i ≠ W := by
          intro hc
          apply hiM
          rw [← g2b i hinode, hc, ← hMdef]
        rw [hnext2, if_neg hj, if_neg hjW]
        exact g2b i hinode
  have hinj2 : Function.Injective next2 := by
    intro i j h
    rw [← hinv1 i, h, hinv1 j]
  have hreach : ∀ x, ∃ m, next2^[m] x = node := by
    intro x
    rcases eq_or_ne x node with rfl | hx
    · exact ⟨0, rfl⟩
    · obtain ⟨k, hk⟩ := h3 x W
      rw [walk_eq_iterate] at hk
      have hstepa : step a Direction.Forwards = a.next := rfl
      rw [hstepa] at hk
      obtain ⟨m1, hm1⟩ := reach_unlinked h1 h2 hNnode k x W hx hWne hk
      obtain ⟨m2, hm2⟩ := iterate_reach_transfer a1.next next2 W node g1
        (fun y hyW hynode => by rw [hnext2, if_neg hynode, if_neg hyW]) m1 x hx
        hm1
      refine ⟨m2 + 1, ?_⟩
      rw [Function.iterate_succ_apply', hm2, hnext2, if_neg hWne, if_pos rfl]
  have horb := orbit_all hinj2 node hreach
  rw [hshift_eq]
  refine ⟨hinv1, hinv2, ?_⟩
  intro i j
  obtain ⟨m, hm⟩ := hreach i
  obtain ⟨k, hk⟩ := horb j
  refine ⟨k + m, ?_⟩
  rw [walk_eq_iterate]
  have hstep2 : step { values := a.values, prev := prev2, next := next2 }
      Direction.Forwards = next2 := rfl
  rw [hstep2, Function.iterate_add_apply, hm, hk]

end Day20

namespace Day20

theorem shift_len_eq {n : Nat} {a : List20 n} (hn : 2 ≤ n) (hwf : WF a)
    (node : Fin n) : shift a node ((n : Int) - 1) = a := by
  have hcast : ((n : Int) - 1) = ((n - 1 : Nat) : Int) := by omega
  have hemod : ((n : Int) - 1) % ((n - 1 : Nat) : Int)
      = (0 : Int) % ((n - 1 : Nat) : Int) := by
    rw [hcast, Int.emod_self, Int.zero_emod]
  rw [shift_congr a node hemod]
  exact shift_zero_eq hn hwf node

theorem ex3_wf : WF ex3 := by
  refine ⟨?_, ?_, ?_⟩
  · decide
  · decide
  · intro i j
    fin_cases i <;> fin_cases j <;>
      first
        | exact ⟨0, by decide⟩
        | exact ⟨1, by decide⟩
        | exact ⟨2, by decide⟩

end Day20

/-- C6: day 20's cyclic shift depends on its offset only modulo n-1: for
every well-formed cyclic list of n >= 2 nodes and every node in it,
shift(node, k) and shift(node, k + (n-1)) produce equal lists, and both
equal shift(node, k.rem_euclid(n-1)); in particular shifting by 0 or by
n-1 leaves the list unchanged. -/
theorem C6_day20_shift_mod (n : Nat) (a : Day20.List20 n) (node : Fin n) (k : Int)
    (hn : 2 ≤ n) (hwf : Day20.WF a) :
    Day20.shift a node k = Day20.shift a node (k + ((n : Int) - 1))
    ∧ Day20.shift a node k = Day20.shift a node (k % ((n : Int) - 1))
    ∧ Day20.shift a node 0 = a
    ∧ Day20.shift a node ((n : Int) - 1) = a := by
  have hcast : ((n : Int) - 1) = ((n - 1 : Nat) : Int) := by omega
  refine ⟨?_, ?_, Day20.shift_zero_eq hn hwf node, Day20.shift_len_eq hn hwf node⟩
  · apply Day20.shift_congr
    rw [hcast]
    simp [Int.add_emod]
  · apply Day20.shift_congr
    rw [hcast]
    rw [Int.emod_emod_of_dvd k dvd_rfl]

/-- Witness for C6 at a concrete three-node list and offset 5. -/
theorem C6_day20_shift_mod_witness :
    Day20.shift Day20.ex3 0 5 = Day20.shift Day20.ex3 0 (5 + ((3 : Int) - 1))
    ∧ Day20.shift Day20.ex3 0 5 = Day20.shift Day20.ex3 0 (5 % ((3 : Int) - 1))
    ∧ Day20.shift Day20.ex3 0 0 = Day20.ex3
    ∧ Day20.shift Day20.ex3 0 ((3 : Int) - 1) = Day20.ex3 :=
  C6_day20_shift_mod 3 Day20.ex3 0 5 (by norm_num) Day20.ex3_wf

/-- C10: day 20 list structural invariant: every shift (and hence every mix)
preserves the arena's n nodes and their values, and afterwards the nodes
still form a single doubly-linked cycle with prev and next mutually inverse
at every node. -/
theorem C10_day20_shift_invariant (n : Nat) (a : Day20.List20 n) (node : Fin n) (k : Int)
    (hn : 2 ≤ n) (hwf : Day20.WF a) :
    Day20.WF (Day20.shift a node k)
    ∧ (Day20.shift a node k).values = a.values
    ∧ Day20.WF (Day20.mix a node)
    ∧ (Day20.mix a node).values = a.values :=
  ⟨Day20.WF_shift hn hwf node k, rfl, Day20.WF_shift hn hwf node _, rfl⟩

/-- Witness for C10 at a concrete three-node list and offset 5. -/
theorem C10_day20_shift_invariant_witness :
    Day20.WF (Day20.shift Day20.ex3 0 5)
    ∧ (Day20.shift Day20.ex3 0 5).values = Day20.ex3.values
    ∧ Day20.WF (Day20.mix Day20.ex3 0)
    ∧ (Day20.mix Day20.ex3 0).values = Day20.ex3.values :=
  C10_day20_shift_invariant 3 Day20.ex3 0 5 (by norm_num) Day20.ex3_wf

/-! ## Theorems about day 21 -/

namespace Day21

theorem specEval_mono (monkeys : List (String × Monkey)) :
    ∀ f1 : Nat, ∀ f2 : Nat, f1 ≤ f2 → ∀ (name : String) (v : Int),
      specEval monkeys f1 name = some v →
      specEval monkeys f2 name = some v := by
  intro f1
  induction f1 with
  | zero =>
    intro f2 _ name v h
    simp [specEval] at h
  | succ f ih =>
    intro f2 hle name v h
    cases f2 with
    | zero => omega
    | succ f2 =>
      simp only [specEval] at h ⊢
      cases hm : mlookup monkeys name with
      | none => simp [hm] at h
      | some m =>
        simp only [hm, Option.bind_eq_bind, Option.some_bind] at h ⊢
        cases m with
        | Immediate v0 => exact h
        | Delayed l r op =>
          dsimp only at h ⊢
          cases hl : specEval monkeys f l with
          | none => simp [hl] at h
          | some vl =>
            simp only [hl, Option.bind_eq_bind, Option.some_bind] at h
            rw [ih f2 (by omega) l vl hl]
            simp only [Option.bind_eq_bind, Option.some_bind]
            cases hr : specEval monkeys f r with
            | none => simp [hr] at h
            | some vr =>
              simp only [hr, Option.bind_eq_bind, Option.some_bind] at h
              rw [ih f2 (by omega) r vr hr]
              simp only [Option.bind_eq_bind, Option.some_bind]
              exact h

theorem vlookup_coherent {monkeys : List (String × Monkey)}
    {values : List (String × Int)} {k : String} {v : Int}
    (hc : Coherent monkeys values) (h : vlookup values k = some v) :
    ∃ f, specEval monkeys f k = some v := by
  unfold vlookup at h
  cases hf : values.find? (fun p => p.1 == k) with
  | none => simp [hf] at h
  | some p =>
    simp only [hf, Option.map_some] at h
    have hmem := List.mem_of_find?_eq_some hf
    have hk : p.1 = k := by simpa using List.find?_some hf
    obtain ⟨f, hf2⟩ := hc p hmem
    injection h with h
    simp only at h
    refine ⟨f, ?_⟩
    rw [← hk, hf2, h]

theorem evalLoop_coherent (monkeys : List (String × Monkey)) :
    ∀ (order : List String) (values final : List (String × Int)),
      Coherent monkeys values →
      evalLoop monkeys order values = some final →
      Coherent monkeys final := by
  intro order
  induction order with
  | nil =>
    intro values final hc h
    simp only [evalLoop] at h
    injection h with h
    rw [← h]
    exact hc
  | cons name rest ih =>
    intro values final hc h
    simp only [evalLoop] at h
    cases hm : mlookup monkeys name with
    | none => simp [hm] at h
    | some m =>
      simp only [hm, Option.bind_eq_bind, Option.some_bind] at h
      cases m with
      | Immediate v0 =>
        simp only [Option.bind_eq_bind, Option.some_bind] at h
        refine ih _ _ ?_ h
        intro p hp
        rcases List.mem_cons.1 hp with rfl | hp
        · exact ⟨1, by simp [specEval, hm]⟩
        · exact hc p hp
      | Delayed l r op =>
        cases hl : vlookup values l with
        | none => simp [hl] at h
        | some vl =>
          simp only [hl, Option.bind_eq_bind, Option.some_bind] at h
          cases hr : vlookup values r with
          | none => simp [hr] at h
          | some vr =>
            simp only [hr, Option.bind_eq_bind, Option.some_bind] at h
            refine ih _ _ ?_ h
            intro p hp
            rcases List.mem_cons.1 hp with rfl | hp
            · obtain ⟨f1, hf1⟩ := vlookup_coherent hc hl
              obtain ⟨f2, hf2⟩ := vlookup_coherent hc hr
              refine ⟨max f1 f2 + 1, ?_⟩
              simp only [specEval, hm, Option.bind_eq_bind, Option.some_bind]
              rw [specEval_mono monkeys f1 (max f1 f2) (by omega) l vl hf1]
              simp only [Option.bind_eq_bind, Option.some_bind]
              rw [specEval_mono monkeys f2 (max f1 f2) (by omega) r vr hf2]
              rfl
            · exact hc p hp

theorem solve_value_spec {input : List Char} {seed : List String} {v : Int}
    {monkeys : List (String × Monkey)}
    (hp : parse input = some monkeys)
    (h : solve input seed = some v) :
    ∃ f, specEval monkeys f "root" = some v := by
  unfold solve at h
  rw [hp] at h
  simp only [Option.bind_eq_bind, Option.some_bind] at h
  cases he : evalLoop monkeys (topsortK monkeys seed) [] with
  | none => simp [he] at h
  | some values =>
    simp only [he, Option.bind_eq_bind, Option.some_bind] at h
    have hc := evalLoop_coherent monkeys _ [] values
      (fun p hp2 => absurd hp2 (List.not_mem_nil p)) he
    exact vlookup_coherent hc h

end Day21

/-- C5: every solver's solve is a pure, deterministic function of its input
text; in particular day 21's solve returns the same value for the node
'root' regardless of the unspecified HashMap iteration order (modelled by
the seed list) that seeds its topological sort's work stack. -/
theorem C5_day21_deterministic :
    ∀ (input : List Char) (seed1 seed2 : List String) (v1 v2 : Int),
      Day21.solve input seed1 = some v1 → Day21.solve input seed2 = some v2 →
      v1 = v2 := by
  intro input s1 s2 v1 v2 h1 h2
  cases hp : Day21.parse input with
  | none =>
    unfold Day21.solve at h1
    rw [hp] at h1
    simp at h1
  | some monkeys =>
    obtain ⟨f1, hf1⟩ := Day21.solve_value_spec hp h1
    obtain ⟨f2, hf2⟩ := Day21.solve_value_spec hp h2
    have e1 := Day21.specEval_mono monkeys f1 (max f1 f2) (by omega) _ _ hf1
    have e2 := Day21.specEval_mono monkeys f2 (max f1 f2) (by omega) _ _ hf2
    rw [e1] at e2
    injection e2

/-- Witness for C5: one concrete input evaluated under two different seed
orders. -/
theorem C5_day21_deterministic_witness :
    Day21.solve Day21.detExample ["a", "b"] = some 3
    ∧ Day21.solve Day21.detExample ["b", "a"] = some 3
    ∧ (3 : Int) = 3 :=
  ⟨by decide, by decide,
    C5_day21_deterministic Day21.detExample ["a", "b"] ["b", "a"] 3 3 (by decide) (by decide)⟩

/-- C7 counterexample: the claim says nothing is printed to standard output
during any solver's computation, but day 21's solve_2 (src/day21.rs line
218) prints the root expression: on this input it returns an answer AND
writes the non-empty line "(x - 1)" to stdout. -/
theorem C7_day21_prints_counterexample :
    Day21.solve_2 Day21.printExample ["humn", "a"] = some (1, ["(x - 1)"])
    ∧ (["(x - 1)"] : List String) ≠ [] := by
  exact ⟨by decide, by decide⟩

/-- C7 (amended): no embedded solver performs I/O beyond consuming its input
and producing its output, except day 21's solve_2, which also prints exactly
one line to standard output: the rendered root expression. -/
theorem C7_day21_prints_one_line :
    ∀ (input : List Char) (seed : List String) (v : Int) (tr : List String),
      Day21.solve_2 input seed = some (v, tr) →
      ∃ e, Day21.get_expression input seed = some e
        ∧ tr = [String.mk e.render] := by
  intro input seed v tr h
  unfold Day21.solve_2 at h
  cases he : Day21.get_expression input seed with
  | none => rw [he] at h; simp at h
  | some e =>
    rw [he] at h
    simp only [Option.bind_eq_bind, Option.some_bind] at h
    cases hs : e.simplify with
    | none => rw [hs] at h; simp at h
    | some s =>
      rw [hs] at h
      simp only [Option.bind_eq_bind, Option.some_bind] at h
      simp only [Option.pure_def] at h
      injection h with h
      refine ⟨e, rfl, ?_⟩
      have h2 := congrArg Prod.snd h
      simp only at h2
      rw [← h2]

/-- Witness for C7's amended theorem at a concrete input. -/
theorem C7_day21_prints_witness :
    ∃ e, Day21.get_expression Day21.printExample ["humn", "a"] = some e
      ∧ (["(x - 1)"] : List String) = [String.mk e.render] :=
  C7_day21_prints_one_line Day21.printExample ["humn", "a"] 1 ["(x - 1)"] (by decide)
